import Mathlib

/-!
# Verification of the KAZU curation / disambiguation core

A shallow embedding of the curation-processor, ontology-grouping, mapping-strategy
and disambiguation-strategy code of the KAZU repository
(`kazu/modelling/ontology_preprocessing/base.py`,
`kazu/steps/linking/post_processing/mapping_strategies/strategies.py`,
`kazu/steps/linking/post_processing/disambiguation/strategies.py`),
together with proofs and refutations of the specification's claims about it.

Modelling conventions:
* Python `frozenset` values (`EquivalentIdSet`, `AssociatedIdSets`, string sets)
  are `Finset`s, so structural equality coincides with Python set equality.
* Python `dict`s (insertion ordered, unique keys) are association lists with
  `mfind?` / `minsert` / `merase`; `minsert` replaces in place, matching `d[k] = v`.
* Python mutable `set`s that are iterated are duplicate-free `List`s, inserted
  with `bucketInsert` (append if absent) and removed with `List.erase`.
* Where Python iterates an unordered collection we fix a canonical order
  (the list order of our model, or `Finset.sort` for id sets); every claim we
  settle is either independent of that order or checked on concrete inputs
  where the order cannot matter.
* Exceptions (`KeyError`, `TypeError`, `AssertionError`, `ValueError`,
  `CurationException`) are modelled with `Except CPErr`.
-/

section MapModel

variable {α β : Type} [DecidableEq α]

/-- Lookup in an association-list model of a Python `dict` (first match wins). -/
def mfind? : List (α × β) → α → Option β
  | [], _ => none
  | (k', v') :: t, k => if k' = k then some v' else mfind? t k

/-- `d[k] = v`: replace the entry in place if the key exists, else append. -/
def minsert : List (α × β) → α → β → List (α × β)
  | [], k, v => [(k, v)]
  | (k', v') :: t, k, v => if k' = k then (k, v) :: t else (k', v') :: minsert t k v

/-- `d.pop(k)`: drop every entry with the given key (keys are unique anyway). -/
def merase : List (α × β) → α → List (α × β)
  | [], _ => []
  | (k', v') :: t, k => if k' = k then merase t k else (k', v') :: merase t k

/-- `s.add(x)` on a Python set modelled as a duplicate-free list. -/
def bucketInsert [DecidableEq β] (b : List β) (x : β) : List β :=
  if x ∈ b then b else b ++ [x]

theorem mfind?_minsert_self (m : List (α × β)) (k : α) (v : β) :
    mfind? (minsert m k v) k = some v := by
  induction m with
  | nil => simp [minsert, mfind?]
  | cons kv t ih =>
    by_cases h : kv.1 = k <;> simp [minsert, mfind?, h, ih]

theorem mfind?_minsert_ne (m : List (α × β)) (k k' : α) (v : β) (h : k ≠ k') :
    mfind? (minsert m k v) k' = mfind? m k' := by
  induction m with
  | nil => simp [minsert, mfind?, h]
  | cons kv t ih =>
    by_cases hk : kv.1 = k <;> simp [minsert, mfind?, hk, h, ih]

theorem mfind?_merase_self (m : List (α × β)) (k : α) :
    mfind? (merase m k) k = none := by
  induction m with
  | nil => simp [merase, mfind?]
  | cons kv t ih =>
    obtain ⟨k0, v0⟩ := kv
    by_cases h : k0 = k
    · simpa [merase, h] using ih
    · simpa [merase, mfind?, h] using ih

theorem mfind?_merase_ne (m : List (α × β)) (k k' : α) (h : k ≠ k') :
    mfind? (merase m k) k' = mfind? m k' := by
  induction m with
  | nil => simp [merase]
  | cons kv t ih =>
    obtain ⟨k0, v0⟩ := kv
    by_cases hk : k0 = k
    · subst hk
      simp [merase, mfind?, h, ih]
    · by_cases hk' : k0 = k' <;>
        simp [merase, mfind?, hk, hk', ih, Ne.symm h]

theorem mem_bucketInsert [DecidableEq β] (b : List β) (x y : β) :
    y ∈ bucketInsert b x ↔ y ∈ b ∨ y = x := by
  by_cases h : x ∈ b
  · simp only [bucketInsert, if_pos h]
    constructor
    · exact Or.inl
    · rintro (hy | rfl) <;> [exact hy; exact h]
  · simp [bucketInsert, if_neg h]

end MapModel

section DataModel

/-- `kazu.data.data.EquivalentIdSet`: an immutable set of (id, source) pairs. -/
abbrev EqIdSet := Finset (String × String)

/-- `kazu.data.data.AssociatedIdSets`: a frozenset of `EquivalentIdSet`s. -/
abbrev AssocIdSets := Finset EqIdSet

/-- `EquivalentIdSet.ids`: the ids of the member pairs. -/
def eqIdSetIds (e : EqIdSet) : Finset String := e.image Prod.fst

/-- All ids spanned by an `AssociatedIdSets`. -/
def assocAllIds (a : AssocIdSets) : Finset String := a.sup eqIdSetIds

/-- Structural lexicographic comparison of char lists (the library's `String`
order goes through iterators and does not reduce definitionally). -/
def charListLe : List Char → List Char → Bool
  | [], _ => true
  | _ :: _, [] => false
  | a :: as, b :: bs =>
    if a < b then true else if b < a then false else charListLe as bs

/-- A total lexicographic order on strings that reduces definitionally. -/
def strLe (a b : String) : Bool := charListLe a.data b.data

theorem charListLe_total : ∀ a b, charListLe a b = true ∨ charListLe b a = true
  | [], _ => Or.inl rfl
  | _ :: _, [] => Or.inr rfl
  | a :: as, b :: bs => by
    rcases lt_trichotomy a b with h | h | h
    · exact Or.inl (by simp [charListLe, h])
    · subst h
      rcases charListLe_total as bs with h2 | h2
      · exact Or.inl (by simp [charListLe, h2])
      · exact Or.inr (by simp [charListLe, h2])
    · exact Or.inr (by simp [charListLe, h])

theorem charListLe_trans :
    ∀ a b c, charListLe a b = true → charListLe b c = true → charListLe a c = true
  | [], _, _ => by intro _ _; rfl
  | a :: as, [], c => by intro h; simp [charListLe] at h
  | a :: as, b :: bs, [] => by
    intro _ h; simp [charListLe] at h
  | a :: as, b :: bs, c :: cs => by
    intro h1 h2
    by_cases hab : a < b
    · by_cases hbc : b < c
      · simp [charListLe, hab.trans hbc]
      · by_cases hcb : c < b
        · simp [charListLe, hcb, lt_asymm hcb] at h2
        · have : b = c := le_antisymm (not_lt.1 hcb) (not_lt.1 hbc)
          subst this
          simp [charListLe, hab]
    · by_cases hba : b < a
      · simp [charListLe, hab, hba] at h1
      · have : a = b := le_antisymm (not_lt.1 hba) (not_lt.1 hab)
        subst this
        by_cases hac : a < c
        · simp [charListLe, hac]
        · by_cases hca : c < a
          · simp [charListLe, hca, lt_asymm hca] at h2
          · simp [charListLe, hab, hba, hac, hca] at h1 h2 ⊢
            exact charListLe_trans as bs cs h1 h2

theorem charListLe_antisymm :
    ∀ a b, charListLe a b = true → charListLe b a = true → a = b
  | [], [] => by intro _ _; rfl
  | [], _ :: _ => by intro _ h; simp [charListLe] at h
  | _ :: _, [] => by intro h _; simp [charListLe] at h
  | a :: as, b :: bs => by
    intro h1 h2
    by_cases hab : a < b
    · simp [charListLe, hab, lt_asymm hab] at h2
    · by_cases hba : b < a
      · simp [charListLe, hab, hba] at h1
      · have hab' : a = b := le_antisymm (not_lt.1 hba) (not_lt.1 hab)
        subst hab'
        simp [charListLe, hab, hba] at h1 h2
        rw [charListLe_antisymm as bs h1 h2]

theorem strLe_total (a b : String) : strLe a b = true ∨ strLe b a = true :=
  charListLe_total a.data b.data

theorem strLe_trans (a b c : String) :
    strLe a b = true → strLe b c = true → strLe a c = true :=
  charListLe_trans a.data b.data c.data

theorem strLe_antisymm (a b : String) :
    strLe a b = true → strLe b a = true → a = b := by
  intro h1 h2
  obtain ⟨da⟩ := a
  obtain ⟨db⟩ := b
  rw [charListLe_antisymm da db h1 h2]

/-- The order relation used for canonical enumeration of string sets. -/
def strLeR (a b : String) : Prop := strLe a b = true

instance : DecidableRel strLeR := fun a b => instDecidableEqBool (strLe a b) true

instance : IsTotal String strLeR := ⟨strLe_total⟩

instance : IsTrans String strLeR := ⟨strLe_trans⟩

instance : IsAntisymm String strLeR := ⟨strLe_antisymm⟩

/-- A sorted enumeration of a multiset of strings, via the structural
`insertionSort` (so that concrete states reduce definitionally). -/
def sortedStringList (m : Multiset String) : List String :=
  Quot.liftOn m (fun l => l.insertionSort strLeR)
    (fun _ _ h =>
      List.eq_of_perm_of_sorted
        ((List.perm_insertionSort _ _).trans
          (h.trans (List.perm_insertionSort _ _).symm))
        (List.sorted_insertionSort _ _) (List.sorted_insertionSort _ _))

/-- Canonical iteration order for a Python set of id strings. -/
def idList (s : Finset String) : List String := sortedStringList s.val

theorem mem_assocAllIds (a : AssocIdSets) (i : String) :
    i ∈ assocAllIds a ↔ ∃ e ∈ a, i ∈ eqIdSetIds e := by
  simp [assocAllIds, Finset.mem_sup]

theorem mem_sortedStringList (m : Multiset String) (i : String) :
    i ∈ sortedStringList m ↔ i ∈ m := by
  refine Quot.inductionOn m (fun l => ?_)
  exact (List.perm_insertionSort _ l).mem_iff

theorem mem_idList (s : Finset String) (i : String) : i ∈ idList s ↔ i ∈ s := by
  rw [idList, mem_sortedStringList]
  rfl

/-- `kazu.data.data.EquivalentIdAggregationStrategy`. -/
inductive AggStrategy where
  | noStrategy
  | unambiguous
  | mergedAsNonSymbolic
  | resolvedBySimilarity
  | custom
  | modifiedByCuration
deriving DecidableEq

/-- `CurationModificationResult` in `ontology_preprocessing/base.py`. -/
inductive CMResult where
  | idSetModified
  | synonymTermAdded
  | synonymTermDropped
  | noAction
deriving DecidableEq

/-- The Python exceptions that the embedded code can raise. -/
inductive CPErr where
  | curationException
  | keyError
  | typeError
  | assertionError
  | valueError
deriving DecidableEq

instance {ε α : Type} [DecidableEq ε] [DecidableEq α] : DecidableEq (Except ε α) :=
  fun a b =>
    match a, b with
    | .ok x, .ok y =>
      if h : x = y then isTrue (by rw [h]) else isFalse (by simp [h])
    | .error x, .error y =>
      if h : x = y then isTrue (by rw [h]) else isFalse (by simp [h])
    | .ok _, .error _ => isFalse (by simp)
    | .error _, .ok _ => isFalse (by simp)

/-- `kazu.data.data.SynonymTerm` (structural equality, as for the frozen dataclass). -/
structure SynonymTerm where
  termNorm : String
  terms : Finset String
  isSymbolic : Bool
  mappingTypes : Finset String
  associatedIdSets : AssocIdSets
  parserName : String
  aggregatedBy : AggStrategy
  originalTerm : Option String := none
deriving DecidableEq

/-- All ids spanned by a term's `AssociatedIdSets`. -/
def SynonymTerm.allIds (t : SynonymTerm) : Finset String := assocAllIds t.associatedIdSets

/-- `kazu.data.data.SynonymTermBehaviour`. -/
inductive STBehaviour where
  | ignore
  | inheritFromSourceTerm
  | dropSynonymTermForLinking
  | dropIdSetFromSynonymTerm
  | addForLinkingOnly
  | addForNerAndLinking
deriving DecidableEq

/-- `kazu.data.data.SynonymTermAction`.  The action's `AssociatedIdSets` frozenset is
carried as a duplicate-free list giving its iteration order; equality-sensitive
operations go through `List.toFinset`. -/
structure SynonymTermAction where
  behaviour : STBehaviour
  associatedIdSets : Option (List EqIdSet)
deriving DecidableEq

/-- `kazu.data.data.Curation` (the `_id` field keeps distinct curations distinct,
as Python's structural dataclass equality does). -/
structure Curation where
  cid : String
  curatedSynonym : String
  sourceTerm : Option String
  actions : List SynonymTermAction
deriving DecidableEq

end DataModel

section CurationProcessor

/-- The immutable context of a `CurationProcessor`: parser name plus the external
`StringNormalizer` collaborators (deterministic, total functions per the spec) and
the optional global actions (each `DROP_IDS_FROM_PARSER` action is its id list). -/
structure CPCtx where
  parserName : String
  norm : String → String
  classifySymbolic : String → Bool
  globalActions : Option (List (List String))

/-- Modelled from the spec: `Curation.curated_synonym_norm` (in the missing
`kazu/data/data.py`) normalises the curation's literal synonym with the external
normalizer for the processor's entity class. -/
def Curation.curatedSynonymNorm (ctx : CPCtx) (c : Curation) : String :=
  ctx.norm c.curatedSynonym

/-- Modelled from the spec: `Curation.term_norm_for_linking` (in the missing
`kazu/data/data.py`) resolves via the term norm of the source term when
`source_term` is set ("they resolve via the term_norm of their source, not their
own"), else via the curated synonym itself. -/
def Curation.termNormForLinking (ctx : CPCtx) (c : Curation) : String :=
  match c.sourceTerm with
  | some src => ctx.norm src
  | none => ctx.norm c.curatedSynonym

/-- The mutable state of a `CurationProcessor`: the two term indices plus the
curation set and the curations-by-id index (key `none` collects curations whose
action has no associated id sets). -/
structure CPState where
  termsByTermNorm : List (String × SynonymTerm)
  termsById : List (String × List SynonymTerm)
  curations : List Curation
  curationsById : List (Option String × List Curation)
deriving DecidableEq

/-- Add a term to the by-id bucket of every id it spans
(`self._terms_by_id[idx].add(term)`; the defaultdict creates missing buckets). -/
def addToBuckets (m : List (String × List SynonymTerm)) (t : SynonymTerm) :
    List String → List (String × List SynonymTerm)
  | [] => m
  | i :: rest =>
    addToBuckets (minsert m i (bucketInsert ((mfind? m i).getD []) t)) t rest

/-- `CurationProcessor._update_term_lookups`.  Returns `SYNONYM_TERM_ADDED` iff the
term norm was free or `override` was set; the conflicting and identical-id-set
cases both fall through to `NO_ACTION` (they differ only in logging). -/
def updateTermLookups (s : CPState) (term : SynonymTerm) (override : Bool) :
    Except CPErr (CPState × CMResult) :=
  if term.originalTerm ≠ none then .error .assertionError
  else
    let safeToAdd := (mfind? s.termsByTermNorm term.termNorm).isNone || override
    if safeToAdd then
      .ok ({ s with
              termsByTermNorm := minsert s.termsByTermNorm term.termNorm term,
              termsById := addToBuckets s.termsById term (idList term.allIds) },
           .synonymTermAdded)
    else .ok (s, .noAction)

/-- The removal loop of `CurationProcessor._drop_synonym_term`: discard the term
from each id bucket.  A missing bucket (`.get` returned `None`) is skipped; a
bucket not containing the term makes Python's `set.remove` raise `KeyError`,
which the enclosing `try` swallows, aborting the remaining removals. -/
def removeFromBuckets (m : List (String × List SynonymTerm)) (t : SynonymTerm) :
    List String → List (String × List SynonymTerm)
  | [] => m
  | i :: rest =>
    match mfind? m i with
    | none => removeFromBuckets m t rest
    | some b =>
      if t ∈ b then removeFromBuckets (minsert m i (b.erase t)) t rest
      else m

/-- `CurationProcessor._drop_synonym_term`: pop the term by norm (a missing key is
logged and ignored) and remove it from the by-id buckets. -/
def dropSynonymTerm (s : CPState) (syn : String) : CPState :=
  match mfind? s.termsByTermNorm syn with
  | none => s
  | some t =>
    { s with
      termsByTermNorm := merase s.termsByTermNorm syn,
      termsById := removeFromBuckets s.termsById t (idList t.allIds) }

/-- `CurationProcessor._drop_id_from_associated_id_sets` on a term's frozenset:
filter the id out of every `EquivalentIdSet`, keeping only non-empty results. -/
def dropIdFromAssoc (idToDrop : String) (a : AssocIdSets) : AssocIdSets :=
  (a.image (fun e => e.filter (fun p => p.1 ≠ idToDrop))).filter (fun e => e ≠ ∅)

/-- `CurationProcessor._drop_id_from_associated_id_sets` on an action's id-set
list: the same filtering, building the result set in iteration order. -/
def dropIdFromAssocList (idToDrop : String) (l : List EqIdSet) : List EqIdSet :=
  l.foldl
    (fun acc e =>
      let e' := e.filter (fun p => p.1 ≠ idToDrop)
      if e' = ∅ ∨ e' ∈ acc then acc else acc ++ [e'])
    []

/-- `CurationProcessor._modify_or_drop_synonym_term_after_id_set_change`. -/
def modifyOrDrop (s : CPState) (newAssoc : AssocIdSets) (t : SynonymTerm) :
    Except CPErr (CPState × CMResult) :=
  if 0 < newAssoc.card then
    if newAssoc = t.associatedIdSets then .error .valueError
    else
      match updateTermLookups s
        { t with associatedIdSets := newAssoc,
                 aggregatedBy := .modifiedByCuration } true with
      | .error e => .error e
      | .ok (s', r) =>
        if r = .synonymTermAdded then .ok (s', .idSetModified)
        else .error .assertionError
  else
    .ok (dropSynonymTerm s t.termNorm, .synonymTermDropped)

/-- `CurationProcessor._drop_id_from_synonym_term` (an unchanged id-set frozenset,
i.e. empty symmetric difference, is a no-op). -/
def dropIdFromSynonymTerm (s : CPState) (idToDrop : String) (t : SynonymTerm) :
    Except CPErr (CPState × CMResult) :=
  let na := dropIdFromAssoc idToDrop t.associatedIdSets
  if na = t.associatedIdSets then .ok (s, .noAction)
  else modifyOrDrop s na t

/-- The counting loop of `CurationProcessor._drop_id_from_all_synonym_terms`. -/
def dropTermsLoop (s : CPState) (idToDrop : String) :
    List SynonymTerm → Nat → Nat → Except CPErr (CPState × Nat × Nat)
  | [], m, d => .ok (s, m, d)
  | t :: rest, m, d =>
    match dropIdFromSynonymTerm s idToDrop t with
    | .error e => .error e
    | .ok (s', r) =>
      match r with
      | .synonymTermDropped => dropTermsLoop s' idToDrop rest m (d + 1)
      | .idSetModified => dropTermsLoop s' idToDrop rest (m + 1) d
      | _ => dropTermsLoop s' idToDrop rest m d

/-- `CurationProcessor._drop_id_from_all_synonym_terms`.  The source calls
`self._terms_by_id.pop(id_to_drop)` without a default, so a key that is absent
raises `KeyError` (the subsequent `is not None` check is unreachable). -/
def dropIdFromAllSynonymTerms (s : CPState) (idToDrop : String) :
    Except CPErr (CPState × Nat × Nat) :=
  match mfind? s.termsById idToDrop with
  | none => .error .keyError
  | some pile =>
    dropTermsLoop { s with termsById := merase s.termsById idToDrop } idToDrop pile 0 0

/-- `CurationProcessor._drop_equivalent_id_set_from_synonym_term`: re-reads the
current term by norm (`self._terms_by_term_norm[synonym]`, raising `KeyError` if
absent), discards the id set and hands over to `modifyOrDrop`. -/
def dropEquivFromTerm (s : CPState) (syn : String) (e : EqIdSet) :
    Except CPErr (CPState × CMResult) :=
  match mfind? s.termsByTermNorm syn with
  | none => .error .keyError
  | some t => modifyOrDrop s (t.associatedIdSets.erase e) t

/-- The loop of `CurationProcessor._drop_id_set_from_synonym_term`: membership is
checked against the term read before the loop, while each drop re-reads the
database. -/
def dropIdSetLoop (s : CPState) (tnorm : String) (origTerm : SynonymTerm) :
    List EqIdSet → Except CPErr CPState
  | [] => .ok s
  | e :: rest =>
    if e ∈ origTerm.associatedIdSets then
      match dropEquivFromTerm s tnorm e with
      | .error err => .error err
      | .ok (s', _r) => dropIdSetLoop s' tnorm origTerm rest
    else
      dropIdSetLoop s tnorm origTerm rest

/-- `CurationProcessor._drop_id_set_from_synonym_term` (the initial
`self._terms_by_term_norm[term_norm]` raises `KeyError` when the norm is absent;
an id set missing from the term is only warned about). -/
def dropIdSetFromSynonymTerm (s : CPState) (dropSets : List EqIdSet)
    (tnorm : String) : Except CPErr CPState :=
  match mfind? s.termsByTermNorm tnorm with
  | none => .error .keyError
  | some t => dropIdSetLoop s tnorm t dropSets

/-- The distinct `AssociatedIdSets` of the terms in an id's bucket
(`maybe_assoc_id_sets_for_this_id`), in bucket order. -/
def assocSetsForId (s : CPState) (idx : String) : List AssocIdSets :=
  ((mfind? s.termsById idx).getD []).foldl
    (fun acc t =>
      if t.associatedIdSets ∈ acc then acc else acc ++ [t.associatedIdSets])
    []

/-- `min(sets, key=len)`: the first element of minimal cardinality. -/
def minByCard : List AssocIdSets → Option AssocIdSets
  | [] => none
  | a :: rest =>
    match minByCard rest with
    | none => some a
    | some m => if m.card < a.card then some m else some a

/-- The reuse-search loop of
`CurationProcessor._attempt_to_add_database_entry_for_curation`: for each target
id take the smallest `AssociatedIdSets` on any term indexed under it (an id with
no terms raises `CurationException`), and keep the overall smallest, replacing
the running candidate only when strictly smaller. -/
def searchReuse (s : CPState) :
    List String → Option AssocIdSets → Except CPErr (Option AssocIdSets)
  | [], acc => .ok acc
  | i :: rest, acc =>
    match minByCard (assocSetsForId s i) with
    | none => .error .curationException
    | some m =>
      match acc with
      | none => searchReuse s rest (some m)
      | some cur =>
        searchReuse s rest (some (if m.card < cur.card then m else cur))

/-- The ids iterated by the reuse search, in the action's id-set order
(each `EquivalentIdSet`'s ids in canonical order). -/
def idsOfAssocList (l : List EqIdSet) : List String :=
  l.flatMap (fun e => idList (eqIdSetIds e))

/-- `CurationProcessor._attempt_to_add_database_entry_for_curation`:
no-op when the existing term already includes the curation's id sets, a
`CurationException` when the norm exists with other id sets, otherwise register
a new curated term, reusing the smallest `AssociatedIdSets` found by
`searchReuse` (the curation's own set is used only when the search saw no id). -/
def attemptToAdd (ctx : CPCtx) (s : CPState) (curationTermNorm : String)
    (curationAssoc : List EqIdSet) (curatedSynonym : String) :
    Except CPErr (CPState × CMResult) :=
  match mfind? s.termsByTermNorm curationTermNorm with
  | some t =>
    if curationAssoc.toFinset ⊆ t.associatedIdSets then .ok (s, .noAction)
    else .error .curationException
  | none =>
    match searchReuse s (idsOfAssocList curationAssoc) none with
    | .error e => .error e
    | .ok reuse =>
      updateTermLookups s
        { termNorm := curationTermNorm,
          terms := {curatedSynonym},
          isSymbolic := ctx.classifySymbolic curatedSynonym,
          mappingTypes := {"kazu_curated"},
          associatedIdSets :=
            match reuse with
            | some m => m
            | none => curationAssoc.toFinset,
          parserName := ctx.parserName,
          aggregatedBy := .modifiedByCuration } false

/-- An add-type behaviour (`ADD_FOR_NER_AND_LINKING` / `ADD_FOR_LINKING_ONLY`). -/
def isAddBehaviour (b : STBehaviour) : Bool :=
  b = .addForNerAndLinking || b = .addForLinkingOnly

/-- The distinct `AssociatedIdSets` targeted by a group's add-type actions
(`conflicting_id_sets` in `analyse_conflicts_in_curations`), as set values. -/
def conflictingIdSets (grp : List Curation) : Finset (Option AssocIdSets) :=
  grp.foldl
    (fun acc c =>
      c.actions.foldl
        (fun acc2 a =>
          if isAddBehaviour a.behaviour then
            insert (a.associatedIdSets.map List.toFinset) acc2
          else acc2)
        acc)
    ∅

/-- Group the non-inherited curations by curated synonym norm, preserving
encounter order of both keys and group members. -/
def groupCurationsByNorm (ctx : CPCtx) (curs : List Curation) :
    List (String × List Curation) :=
  curs.foldl
    (fun g c =>
      if c.sourceTerm.isSome then g
      else
        let k := c.curatedSynonymNorm ctx
        minsert g k (((mfind? g k).getD []) ++ [c]))
    []

/-- `CurationProcessor.analyse_conflicts_in_curations`: inherited curations are
safe; a term-norm group whose add-type actions target more than one distinct
`AssociatedIdSets` is conflicting, otherwise the whole group is safe. -/
def analyseConflicts (ctx : CPCtx) (curs : List Curation) :
    List Curation × List (List Curation) :=
  let groups := groupCurationsByNorm ctx curs
  let safe := curs.filter (fun c => c.sourceTerm.isSome) ++
    (groups.filter (fun kv => ¬ 1 < (conflictingIdSets kv.2).card)).flatMap
      (fun kv => kv.2)
  let conflicts := (groups.filter (fun kv => 1 < (conflictingIdSets kv.2).card)).map
    (fun kv => kv.2)
  (safe, conflicts)

/-- The action dispatch loop of `CurationProcessor._process_curation`. -/
def processActions (ctx : CPCtx) (s : CPState) (c : Curation) (tn : String) :
    List SynonymTermAction → Except CPErr (CPState × Option Curation)
  | [] => .ok (s, none)
  | a :: rest =>
    match a.behaviour with
    | .ignore => .ok (s, none)
    | .inheritFromSourceTerm =>
      if (mfind? s.termsByTermNorm tn).isNone then .ok (s, none)
      else .ok (s, some c)
    | .dropSynonymTermForLinking => .ok (dropSynonymTerm s tn, none)
    | b =>
      match a.associatedIdSets with
      | none => .error .assertionError
      | some assoc =>
        if b = .dropIdSetFromSynonymTerm then
          match dropIdSetFromSynonymTerm s assoc tn with
          | .error e => .error e
          | .ok s' => processActions ctx s' c tn rest
        else
          match attemptToAdd ctx s tn assoc c.curatedSynonym with
          | .error e => .error e
          | .ok (s', _r) => .ok (s', some c)

/-- `CurationProcessor._process_curation`. -/
def processCuration (ctx : CPCtx) (s : CPState) (c : Curation) :
    Except CPErr (CPState × Option Curation) :=
  processActions ctx s c (c.termNormForLinking ctx) c.actions

/-- The order in which `CurationProcessor._process_curations` applies the safe
curations: Python's stable sort on `source_term is not None` puts curations
without a source term first. -/
def sortedSafeCurations (ctx : CPCtx) (curs : List Curation) : List Curation :=
  let safe := (analyseConflicts ctx curs).1
  safe.filter (fun c => c.sourceTerm.isNone) ++
    safe.filter (fun c => c.sourceTerm.isSome)

/-- The application loop of `CurationProcessor._process_curations`, accumulating
the curations returned for NER. -/
def processCurationsLoop (ctx : CPCtx) (s : CPState) (acc : List Curation) :
    List Curation → Except CPErr (CPState × List Curation)
  | [] => .ok (s, acc)
  | c :: rest =>
    match processCuration ctx s c with
    | .error e => .error e
    | .ok (s', mc) =>
      match mc with
      | some c' => processCurationsLoop ctx s' (acc ++ [c']) rest
      | none => processCurationsLoop ctx s' acc rest

/-- `CurationProcessor._process_curations`. -/
def processCurations (ctx : CPCtx) (s : CPState) :
    Except CPErr (CPState × List Curation) :=
  processCurationsLoop ctx s [] (sortedSafeCurations ctx s.curations)

/-- The per-curation rewrite of `CurationProcessor._drop_id_from_curation`:
actions without id sets are kept, emptied actions are skipped, the rest keep
the narrowed id sets. -/
def rewriteActions (idx : String) (actions : List SynonymTermAction) :
    List SynonymTermAction :=
  actions.foldl
    (fun acc a =>
      match a.associatedIdSets with
      | none => acc ++ [a]
      | some l =>
        let u := dropIdFromAssocList idx l
        if u = [] then acc else acc ++ [{ a with associatedIdSets := some u }])
    []

/-- The loop body of `CurationProcessor._drop_id_from_curation` over the affected
curations: re-register the rewritten curation (unless it lost every action),
then remove the old one from the curation set and the by-id bucket — Python's
`set.remove` raises `KeyError` when the element is gone. -/
def dropIdFromCurationLoop (idx : String) :
    CPState → List Curation → Except CPErr CPState
  | s, [] => .ok s
  | s, c :: rest =>
    let newActions := rewriteActions idx c.actions
    let s1 :=
      if newActions ≠ [] then
        let nc := { c with actions := newActions }
        { s with
          curations := bucketInsert s.curations nc,
          curationsById := minsert s.curationsById (some idx)
            (bucketInsert ((mfind? s.curationsById (some idx)).getD []) nc) }
      else s
    if c ∈ s1.curations ∧ c ∈ (mfind? s1.curationsById (some idx)).getD [] then
      dropIdFromCurationLoop idx
        { s1 with
          curations := s1.curations.erase c,
          curationsById := minsert s1.curationsById (some idx)
            (((mfind? s1.curationsById (some idx)).getD []).erase c) }
        rest
    else .error .keyError

/-- `CurationProcessor._drop_id_from_curation`.  The source computes
`set(self._curations_by_id.get(idx))`: when the id has no bucket, `.get`
returns `None` and `set(None)` raises `TypeError`. -/
def dropIdFromCuration (s : CPState) (idx : String) : Except CPErr CPState :=
  match mfind? s.curationsById (some idx) with
  | none => .error .typeError
  | some affected => dropIdFromCurationLoop idx s affected

/-- The per-action id loop of `CurationProcessor._process_global_actions`
(the modified/dropped counters only feed logging). -/
def processIdsLoop : CPState → List String → Except CPErr CPState
  | s, [] => .ok s
  | s, i :: rest =>
    match dropIdFromAllSynonymTerms s i with
    | .error e => .error e
    | .ok (s1, _m, _d) =>
      match dropIdFromCuration s1 i with
      | .error e => .error e
      | .ok s2 => processIdsLoop s2 rest

/-- The per-global-action loop of `CurationProcessor._process_global_actions`. -/
def globalActionsLoop : CPState → List (List String) → Except CPErr CPState
  | s, [] => .ok s
  | s, ids :: rest =>
    match processIdsLoop s ids with
    | .error e => .error e
    | .ok s' => globalActionsLoop s' rest

/-- `CurationProcessor._process_global_actions` (every global action behaviour is
`DROP_IDS_FROM_PARSER`, carried here as its id list). -/
def processGlobalActions (ctx : CPCtx) (s : CPState) : Except CPErr CPState :=
  match ctx.globalActions with
  | none => .ok s
  | some acts => globalActionsLoop s acts

/-- The live terms: `set(self._terms_by_term_norm.values())`. -/
def liveTerms (s : CPState) : List SynonymTerm := s.termsByTermNorm.map Prod.snd

/-- `CurationProcessor.export_ner_curations_and_final_terms`, additionally
returning the final processor state. -/
def exportNerCurationsAndFinalTerms (ctx : CPCtx) (s : CPState) :
    Except CPErr (CPState × List Curation × List SynonymTerm) :=
  match processGlobalActions ctx s with
  | .error e => .error e
  | .ok s1 =>
    match processCurations ctx s1 with
    | .error e => .error e
    | .ok (s2, ner) => .ok (s2, ner, liveTerms s2)

/-- The curations-by-id index built in `CurationProcessor.__init__`: curations of
actions without id sets under key `none`, otherwise one entry per spanned id. -/
def buildCurationIndex (curs : List Curation) :
    List (Option String × List Curation) :=
  curs.foldl
    (fun m c =>
      c.actions.foldl
        (fun m2 a =>
          match a.associatedIdSets with
          | none =>
            minsert m2 none (bucketInsert ((mfind? m2 none).getD []) c)
          | some l =>
            (idsOfAssocList l).foldl
              (fun m3 i =>
                minsert m3 (some i)
                  (bucketInsert ((mfind? m3 (some i)).getD []) c))
              m2)
        m)
    []

/-- The term-loading loop of `CurationProcessor.__init__`. -/
def initTermsLoop : CPState → List SynonymTerm → Except CPErr CPState
  | s, [] => .ok s
  | s, t :: rest =>
    match updateTermLookups s t false with
    | .error e => .error e
    | .ok (s', _r) => initTermsLoop s' rest

/-- `CurationProcessor.__init__`: load the parser's terms, then store the
curation set (`set(curations)` deduplicates) and its by-id index. -/
def initState (curs : List Curation) (terms : List SynonymTerm) :
    Except CPErr CPState :=
  match initTermsLoop
      { termsByTermNorm := [], termsById := [], curations := [], curationsById := [] }
      terms with
  | .error e => .error e
  | .ok s1 =>
    .ok { s1 with
          curations := curs.dedup,
          curationsById := buildCurationIndex curs.dedup }

end CurationProcessor

section Grouping

/-- The greedy cluster state of `OntologyParser.score_and_group_ids`: the
accumulated (ids-and-source, default-labels) pairs, as duplicate-free lists. -/
abbrev Cluster := List (String × String) × List String

/-- `max(self.string_scorer(default_label, other_label) for other_label in ...)`:
`none` models Python's `max` over an empty generator (never reached, since
clusters always hold at least one label). -/
def bestLabelScore (sc : String → String → ℚ) (dl : String) :
    List String → Option ℚ
  | [] => none
  | l :: ls => some (ls.foldl (fun m x => max m (sc dl x)) (sc dl l))

/-- The cluster-selection loop: scan the clusters in order, remembering the one
with the highest similarity that strictly exceeds both the merge threshold and
the best score so far (which starts at 0). -/
def pickCluster (sc : String → String → ℚ) (threshold : ℚ) (dl : String)
    (clusters : List Cluster) : Option Nat :=
  (clusters.foldl
    (fun (st : Option Nat × ℚ × Nat) cl =>
      let (best, bestScore, i) := st
      match bestLabelScore sc dl cl.2 with
      | none => (best, bestScore, i + 1)
      | some sim =>
        if threshold < sim ∧ bestScore < sim then (some i, sim, i + 1)
        else (best, bestScore, i + 1))
    (none, 0, 0)).1

/-- Add an (id, source) pair and its default label to the chosen cluster
(`most_similar_id_set[0].add(...)`, `most_similar_id_set[1].add(...)`). -/
def addToCluster (p : String × String) (dl : String) :
    List Cluster → Nat → List Cluster
  | [], _ => []
  | cl :: rest, 0 => (bucketInsert cl.1 p, bucketInsert cl.2 dl) :: rest
  | cl :: rest, n + 1 => cl :: addToCluster p dl rest n

/-- The greedy clustering loop of `score_and_group_ids` for symbolic synonyms
with several ids: each id either joins the best-matching existing cluster or
starts a new one. -/
def greedyClusters (sc : String → String → ℚ) (threshold : ℚ)
    (labelOf : String → String) (idsAndSource : List (String × String)) :
    List Cluster :=
  idsAndSource.foldl
    (fun clusters p =>
      let dl := labelOf p.1
      match pickCluster sc threshold dl clusters with
      | none => clusters ++ [([p], [dl])]
      | some i => addToCluster p dl clusters i)
    []

/-- `OntologyParser.score_and_group_ids`.  `idsAndSource` enumerates the
`ids_and_source` set (duplicate-free), `labelOf` is the metadata database's
default-label lookup, `scorer` the optional string similarity scorer and
`threshold` the parser's `synonym_merge_threshold`. -/
def scoreAndGroupIds (scorer : Option (String → String → ℚ)) (threshold : ℚ)
    (labelOf : String → String) (idsAndSource : List (String × String))
    (isSymbolic : Bool) : AssocIdSets × AggStrategy :=
  match scorer with
  | none =>
    ((idsAndSource.map (fun p => ({p} : EqIdSet))).toFinset, .noStrategy)
  | some sc =>
    if idsAndSource.length = 1 then
      ({idsAndSource.toFinset}, .unambiguous)
    else if ¬ isSymbolic then
      ({idsAndSource.toFinset}, .mergedAsNonSymbolic)
    else
      (((greedyClusters sc threshold labelOf idsAndSource).map
          (fun cl => cl.1.toFinset)).toFinset,
       .resolvedBySimilarity)

end Grouping

section MappingStrategies

/-- `kazu.data.data.LinkRanks`.  Modelled from the spec: only the distinguished
`AMBIGUOUS` tier matters to this core ("else downgraded to an AMBIGUOUS tier"). -/
inductive LinkRanks where
  | highlyLikely
  | probable
  | ambiguous
deriving DecidableEq

/-- Modelled from the spec: `kazu.data.data.SynonymTermWithMetrics` (in the
missing `kazu/data/data.py`) — a candidate synonym term annotated with
per-match metrics: search score, exact-match flag, and the is-ambiguous mark. -/
structure STWM where
  termNorm : String
  parserName : String
  associatedIdSets : AssocIdSets
  isAmbiguous : Bool
  isSymbolic : Bool
  exactMatch : Bool
  searchScore : Option ℚ
deriving DecidableEq

/-- `kazu.data.data.Mapping`, restricted to the fields this core writes.  The
metadata-store default label and the urllib-based id stripping are external
collaborators, passed in as functions. -/
structure Mapping where
  defaultLabel : String
  idx : String
  source : String
  mappingStrategy : String
  disambiguationStrategy : Option String
  confidence : LinkRanks
  parserName : String
deriving DecidableEq

/-- The collaborators of `MappingFactory.create_mapping`: the metadata store's
default label per id and the url-stripping of ids. -/
structure MappingEnv where
  labelOf : String → String
  stripIdx : String → String

/-- `MappingFactory.create_mapping_from_id_set`, as the set of produced mappings
(one per member id, with its source). -/
def mappingsFromIdSet (env : MappingEnv) (parserName stratName : String)
    (disambiguationStrategy : Option String) (confidence : LinkRanks)
    (e : EqIdSet) : Finset Mapping :=
  e.image
    (fun p =>
      { defaultLabel := env.labelOf p.1,
        idx := env.stripIdx p.1,
        source := p.2,
        mappingStrategy := stratName,
        disambiguationStrategy := disambiguationStrategy,
        confidence := confidence,
        parserName := parserName })

/-- `MappingFactory.create_mapping_from_id_sets` over a set of id sets. -/
def mappingsFromIdSets (env : MappingEnv) (parserName stratName : String)
    (disambiguationStrategy : Option String) (confidence : LinkRanks)
    (idSets : Finset EqIdSet) : Finset Mapping :=
  idSets.biUnion
    (mappingsFromIdSet env parserName stratName disambiguationStrategy confidence)

/-- A configured disambiguation strategy as seen by a mapping strategy: its
class name and its `disambiguate` function with document and parser fixed. -/
abbrev DisambStrategy := String × (Finset EqIdSet → Finset EqIdSet)

/-- A `MappingStrategy`'s configuration: its confidence tier and the optional
strategy chain. -/
structure MSCfg where
  confidence : LinkRanks
  strategies : Option (List DisambStrategy)

/-- The union of the filtered terms' `AssociatedIdSets` (`all_id_sets`). -/
def unionIdSets (ts : List STWM) : Finset EqIdSet :=
  ts.foldl (fun acc t => acc ∪ t.associatedIdSets) ∅

/-- Whether disambiguation is required: more than one filtered term, or any
filtered term marked ambiguous. -/
def disambRequired (ts : List STWM) : Bool :=
  decide (1 < ts.length) || ts.any (fun t => t.isAmbiguous)

/-- The strategy loop of `MappingStrategy.disambiguate_if_required`: the first
strategy whose result has exactly one id set wins (recording its name); the
loop's `else` clause returns the full union. -/
def runStrategies (all : Finset EqIdSet) :
    List DisambStrategy → Finset EqIdSet × Option String
  | [] => (all, none)
  | (n, f) :: rest =>
    let r := f all
    if r.card = 1 then (r, some n) else runStrategies all rest

/-- `MappingStrategy.disambiguate_if_required`. -/
def disambiguateIfRequired (cfg : MSCfg) (filteredTerms : List STWM) :
    Finset EqIdSet × Option String :=
  let all := unionIdSets filteredTerms
  match cfg.strategies with
  | some strats =>
    if disambRequired filteredTerms then runStrategies all strats else (all, none)
  | none => (all, none)

/-- `MappingStrategy.__call__`: filter, disambiguate if required, and emit the
mappings — the configured tier only when exactly one id set survived, else
`AMBIGUOUS`.  `filterTerms` is the subclass's filter; `terms` enumerates the
input set (Python raises on an empty input when reading the parser name). -/
def mappingStrategyCall (cfg : MSCfg) (env : MappingEnv) (stratName : String)
    (filterTerms : List STWM → List STWM) (terms : List STWM) : Finset Mapping :=
  let parserName := (terms.head?.map (fun t => t.parserName)).getD ""
  let filtered := filterTerms terms
  let (idSets, succStrat) := disambiguateIfRequired cfg filtered
  mappingsFromIdSets env parserName stratName succStrat
    (if idSets.card = 1 then cfg.confidence else .ambiguous) idSets

/-- Python's `s.split(" ")` on a char list: split at every space, keeping empty
pieces (structural, unlike the iterator-based library splitter). -/
def splitSpacesAux : List Char → List Char → List String
  | [], cur => [String.mk cur.reverse]
  | c :: cs, cur =>
    if c = ' ' then String.mk cur.reverse :: splitSpacesAux cs []
    else splitSpacesAux cs (c :: cur)

/-- Python's `s.split(" ")`. -/
def splitSpaces (s : String) : List String := splitSpacesAux s.data []

/-- The matching step of `TermNormIsSubStringMappingStrategy.filter_terms`: terms
whose norm is one of the mention norm's whitespace tokens and long enough. -/
def termNormSubMatches (minTermNormLen : Nat) (entMatchNorm : String)
    (terms : List STWM) : List STWM :=
  terms.filter
    (fun t => t.termNorm ∈ splitSpaces entMatchNorm ∧
      minTermNormLen ≤ t.termNorm.length)

/-- Sorting by descending term-norm length (`sort(key=..., reverse=True)`). -/
def lenDescR (a b : STWM × Nat) : Prop := b.2 ≤ a.2

instance : DecidableRel lenDescR := fun a b => Nat.decLe b.2 a.2

instance : IsTotal (STWM × Nat) lenDescR := ⟨fun a b => Nat.le_total b.2 a.2⟩

instance : IsTrans (STWM × Nat) lenDescR :=
  ⟨fun _ _ _ hab hbc => Nat.le_trans hbc hab⟩

/-- The `itertools.groupby` key equality: equal term-norm lengths. -/
def sameLen (a b : STWM × Nat) : Bool := a.2 == b.2

/-- `TermNormIsSubStringMappingStrategy.filter_terms`: keep terms whose norm is a
whitespace token of the mention norm and long enough, sort by norm length
descending (a stable sort, as Python's), group by equal length, and return the
first group that is a singleton. -/
def termNormSubFilter (minTermNormLen : Nat) (entMatchNorm : String)
    (terms : List STWM) : List STWM :=
  let filtered := (termNormSubMatches minTermNormLen entMatchNorm terms).map
    (fun t => (t, t.termNorm.length))
  let sorted := filtered.insertionSort lenDescR
  let groups := sorted.splitBy sameLen
  match groups.find? (fun g => g.length = 1) with
  | some (x :: _) => [x.1]
  | _ => []

end MappingStrategies

section TfIdfDisambiguation

/-- The bucket-building loop of
`TfIdfDisambiguationStrategy.build_id_set_representation`: each id set is filed
under every synonym of every id it spans (`synsForId` stands for the synonym
database's `get_syns_for_id`, already filtered by aggregation strategy). -/
def buildIdSetRepresentation (synsForId : String → List String)
    (idSets : List EqIdSet) : List (String × List EqIdSet) :=
  idSets.foldl
    (fun m e =>
      (idList (eqIdSetIds e)).foldl
        (fun m2 i =>
          (synsForId i).foldl
            (fun m3 syn =>
              minsert m3 syn (bucketInsert ((mfind? m3 syn).getD []) e))
            m2)
        m)
    []

/-- `TfIdfDisambiguationStrategy.disambiguate`.  `scorer` is the optional ranked
(synonym, score) output of the TF-IDF scorer over the representation's keys; a
hit above the threshold whose synonym is held by exactly one id set wins. -/
def tfidfDisambiguate (scorer : Option (List String → List (String × ℚ)))
    (threshold : ℚ) (synsForId : String → List String) (idSets : List EqIdSet) :
    List EqIdSet :=
  match scorer with
  | none => []
  | some sc =>
    let rep := buildIdSetRepresentation synsForId idSets
    if rep.length = 0 then []
    else
      let ranked := sc (rep.map Prod.fst)
      match ranked.find?
          (fun bs => threshold ≤ bs.2 ∧ ((mfind? rep bs.1).getD []).length = 1) with
      | some bs => (mfind? rep bs.1).getD []
      | none => []

end TfIdfDisambiguation

section Fixtures

/-! Concrete instances used by witnesses and counterexamples. -/

def pairA : String × String := ("A", "s")

def pairB : String × String := ("B", "s")

def eqA : EqIdSet := {pairA}

def eqB : EqIdSet := {pairB}

def eqAB : EqIdSet := {pairA, pairB}

/-- A term whose single `EquivalentIdSet` spans the ids A and B. -/
def termFoo : SynonymTerm :=
  { termNorm := "FOO", terms := {"foo"}, isSymbolic := true, mappingTypes := {"t"},
    associatedIdSets := {eqAB}, parserName := "p", aggregatedBy := .unambiguous }

/-- A term linking only id A. -/
def termT1 : SynonymTerm :=
  { termNorm := "T1", terms := {"t1"}, isSymbolic := true, mappingTypes := {"t"},
    associatedIdSets := {eqA}, parserName := "p", aggregatedBy := .unambiguous }

/-- A term linking only id B. -/
def termT2 : SynonymTerm :=
  { termNorm := "T2", terms := {"t2"}, isSymbolic := true, mappingTypes := {"t"},
    associatedIdSets := {eqB}, parserName := "p", aggregatedBy := .unambiguous }

def ctxPlain : CPCtx :=
  { parserName := "p", norm := id, classifySymbolic := fun _ => false,
    globalActions := none }

/-- A context whose global actions drop the id A. -/
def ctxDropA : CPCtx := { ctxPlain with globalActions := some [["A"]] }

/-- A curation asking to drop the id set {A} from the term for "x". -/
def curDropA : Curation :=
  { cid := "c1", curatedSynonym := "x", sourceTerm := none,
    actions := [{ behaviour := .dropIdSetFromSynonymTerm,
                  associatedIdSets := some [eqA] }] }

/-- The processor state after loading `termFoo` and `curDropA`. -/
def stateFoo : CPState :=
  { termsByTermNorm := [("FOO", termFoo)],
    termsById := [("A", [termFoo]), ("B", [termFoo])],
    curations := [curDropA],
    curationsById := [(some "A", [curDropA])] }

/-- The processor state after loading `termFoo` with no curations at all. -/
def stateFooInit : CPState :=
  { termsByTermNorm := [("FOO", termFoo)],
    termsById := [("A", [termFoo]), ("B", [termFoo])],
    curations := [], curationsById := [] }

/-- The processor state after loading `termT1` and `termT2` with no curations. -/
def stateT12 : CPState :=
  { termsByTermNorm := [("T1", termT1), ("T2", termT2)],
    termsById := [("A", [termT1]), ("B", [termT2])],
    curations := [], curationsById := [] }

/-- A candidate with the given term norm (the other fields are irrelevant to the
substring filter). -/
def stwmFix (n : String) : STWM :=
  { termNorm := n, parserName := "p", associatedIdSets := {eqA}, isAmbiguous := false,
    isSymbolic := true, exactMatch := false, searchScore := none }

/-- The metadata default labels of the spec's grouping scenario. -/
def labFix : String → String := fun i => if i = "A" then "Foo" else "Foo2"

end Fixtures

section ConsistencyPredicates

/-- Two term lists with the same members. -/
def sameElems (l1 l2 : List SynonymTerm) : Bool :=
  l1.all (fun t => decide (t ∈ l2)) && l2.all (fun t => decide (t ∈ l1))

/-- The live terms whose `AssociatedIdSets` span a given id. -/
def liveTermsContaining (s : CPState) (i : String) : List SynonymTerm :=
  (liveTerms s).filter (fun t => i ∈ t.allIds)

/-- The mutual index consistency asserted by the spec: every by-id bucket holds
exactly the live terms spanning that id, and every live term is indexed under
each id it spans. -/
def mutuallyConsistentB (s : CPState) : Bool :=
  s.termsById.all (fun kv => sameElems kv.2 (liveTermsContaining s kv.1)) &&
  (liveTerms s).all (fun t =>
    (idList t.allIds).all (fun i => decide (t ∈ (mfind? s.termsById i).getD [])))

end ConsistencyPredicates

section BasicMapLemmas

theorem mfind?_mem {α β : Type} [DecidableEq α] {m : List (α × β)} {k : α} {b : β}
    (h : mfind? m k = some b) : (k, b) ∈ m := by
  induction m with
  | nil => simp [mfind?] at h
  | cons kv t ih =>
    obtain ⟨k0, v0⟩ := kv
    by_cases hk : k0 = k
    · subst hk
      simp [mfind?] at h
      subst h
      exact List.mem_cons_self _ _
    · simp [mfind?, hk] at h
      exact List.mem_cons_of_mem _ (ih h)

theorem mem_minsert {α β : Type} [DecidableEq α] {m : List (α × β)} {k : α}
    {v : β} {kv : α × β} (h : kv ∈ minsert m k v) : kv ∈ m ∨ kv = (k, v) := by
  induction m with
  | nil => simpa [minsert] using h
  | cons kv0 t ih =>
    obtain ⟨k0, v0⟩ := kv0
    by_cases hk : k0 = k
    · subst hk
      simp [minsert] at h
      rcases h with h | h
      · exact Or.inr h
      · exact Or.inl (List.mem_cons_of_mem _ h)
    · simp [minsert, hk] at h
      rcases h with h | h
      · exact Or.inl (by simp [h])
      · rcases ih h with h2 | h2
        · exact Or.inl (List.mem_cons_of_mem _ h2)
        · exact Or.inr h2

end BasicMapLemmas

section ClaimC10

/-- All id sets stored in the representation's buckets come from the allowed
list; the innermost fold of `buildIdSetRepresentation` preserves this. -/
theorem synFoldInv {allowed : List EqIdSet} :
    ∀ (syns : List String) (m : List (String × List EqIdSet)) (e : EqIdSet),
      e ∈ allowed → (∀ kv ∈ m, ∀ x ∈ kv.2, x ∈ allowed) →
      ∀ kv ∈ syns.foldl
        (fun m3 syn => minsert m3 syn (bucketInsert ((mfind? m3 syn).getD []) e)) m,
        ∀ x ∈ kv.2, x ∈ allowed := by
  intro syns
  induction syns with
  | nil => intro m e _ hm; exact hm
  | cons syn rest ih =>
    intro m e he hm
    refine ih _ e he ?_
    intro kv hkv x hx
    rcases mem_minsert hkv with h | h
    · exact hm kv h x hx
    · subst h
      simp only at hx
      rcases (mem_bucketInsert _ _ _).1 hx with h2 | h2
      · cases hfind : mfind? m syn with
        | none => rw [hfind] at h2; simp at h2
        | some b =>
          rw [hfind] at h2
          exact hm (syn, b) (mfind?_mem hfind) x h2
      · subst h2; exact he

/-- The middle fold of `buildIdSetRepresentation` preserves the bucket bound. -/
theorem idFoldInv {allowed : List EqIdSet} (synsForId : String → List String) :
    ∀ (ids : List String) (m : List (String × List EqIdSet)) (e : EqIdSet),
      e ∈ allowed → (∀ kv ∈ m, ∀ x ∈ kv.2, x ∈ allowed) →
      ∀ kv ∈ ids.foldl
        (fun m2 i => (synsForId i).foldl
          (fun m3 syn => minsert m3 syn (bucketInsert ((mfind? m3 syn).getD []) e)) m2) m,
        ∀ x ∈ kv.2, x ∈ allowed := by
  intro ids
  induction ids with
  | nil => intro m e _ hm; exact hm
  | cons i rest ih =>
    intro m e he hm
    exact ih _ e he (synFoldInv _ m e he hm)

/-- Every bucket of `buildIdSetRepresentation` only holds input id sets. -/
theorem buildIdSetRepresentation_subset (synsForId : String → List String)
    (idSets : List EqIdSet) :
    ∀ kv ∈ buildIdSetRepresentation synsForId idSets, ∀ x ∈ kv.2, x ∈ idSets := by
  rw [buildIdSetRepresentation]
  have main :
      ∀ (rest : List EqIdSet) (m : List (String × List EqIdSet)),
        (∀ e ∈ rest, e ∈ idSets) → (∀ kv ∈ m, ∀ x ∈ kv.2, x ∈ idSets) →
        ∀ kv ∈ rest.foldl
          (fun m e => (idList (eqIdSetIds e)).foldl
            (fun m2 i => (synsForId i).foldl
              (fun m3 syn => minsert m3 syn (bucketInsert ((mfind? m3 syn).getD []) e)) m2) m) m,
          ∀ x ∈ kv.2, x ∈ idSets := by
    intro rest
    induction rest with
    | nil => intro m _ hm; exact hm
    | cons e rest ih =>
      intro m hrest hm
      refine ih _ (fun x hx => hrest x (List.mem_cons_of_mem _ hx)) ?_
      exact idFoldInv synsForId _ m e (hrest e (List.mem_cons_self _ _)) hm
  exact main idSets [] (fun _ h => h) (by simp)

/-- C10: `TfIdfDisambiguationStrategy.disambiguate` returns either nothing or
exactly one `EquivalentIdSet`, and anything it returns is an element of its
input — it never returns several id sets and never invents one. -/
theorem tfidfDisambiguate_subset_singleton
    (scorer : Option (List String → List (String × ℚ))) (threshold : ℚ)
    (synsForId : String → List String) (idSets : List EqIdSet) :
    (tfidfDisambiguate scorer threshold synsForId idSets).length ≤ 1 ∧
    ∀ e ∈ tfidfDisambiguate scorer threshold synsForId idSets, e ∈ idSets := by
  cases scorer with
  | none => simp [tfidfDisambiguate]
  | some sc =>
    rw [tfidfDisambiguate]
    simp only
    by_cases hlen : (buildIdSetRepresentation synsForId idSets).length = 0
    · simp [hlen]
    · rw [if_neg hlen]
      cases hfind : List.find?
          (fun bs => decide (threshold ≤ bs.2 ∧
            ((mfind? (buildIdSetRepresentation synsForId idSets) bs.1).getD []).length = 1))
          (sc (List.map Prod.fst (buildIdSetRepresentation synsForId idSets))) with
      | none => simp
      | some bs =>
        have hp := List.find?_some hfind
        simp only [decide_eq_true_eq] at hp
        refine ⟨?_, ?_⟩
        · exact hp.2.le
        · intro e he
          dsimp only at he
          cases hrep : mfind? (buildIdSetRepresentation synsForId idSets) bs.1 with
          | none => rw [hrep] at he; simp at he
          | some b =>
            rw [hrep] at he
            exact buildIdSetRepresentation_subset synsForId idSets _
              (mfind?_mem hrep) e he

/-- Witness for C10 at a concrete scorer, threshold, synonym table and input. -/
theorem tfidfDisambiguate_subset_singleton_witness :
    (tfidfDisambiguate (some (fun _ => [("SA", mkRat 9 10)])) (mkRat 7 10)
        (fun i => if i = "A" then ["SA"] else ["SB"]) [eqA, eqB]).length ≤ 1 ∧
    ∀ e ∈ tfidfDisambiguate (some (fun _ => [("SA", mkRat 9 10)])) (mkRat 7 10)
        (fun i => if i = "A" then ["SA"] else ["SB"]) [eqA, eqB], e ∈ [eqA, eqB] :=
  tfidfDisambiguate_subset_singleton _ _ _ _

end ClaimC10

section ClaimC5

/-- C5: for every add-type curation whose term norm already has a `SynonymTerm`
and whose target `AssociatedIdSets` is not a subset of that term's (in
particular when disjoint from it), the add operation raises the
`CurationException`; the source raises before any mutation, so the existing
term is never silently overwritten. -/
theorem attemptToAdd_conflicting_norm_raises (ctx : CPCtx) (s : CPState)
    (tn : String) (assoc : List EqIdSet) (syn : String) (t : SynonymTerm)
    (hfound : mfind? s.termsByTermNorm tn = some t)
    (hnsub : ¬ assoc.toFinset ⊆ t.associatedIdSets) :
    attemptToAdd ctx s tn assoc syn = .error .curationException := by
  simp [attemptToAdd, hfound, hnsub]

/-- Witness for C5: adding id set {B} under the norm "T1", which maps to a term
with id sets {{A}}. -/
theorem attemptToAdd_conflicting_norm_raises_witness :
    mfind? stateT12.termsByTermNorm "T1" = some termT1 ∧
    ¬ ([eqB].toFinset ⊆ termT1.associatedIdSets) ∧
    attemptToAdd ctxPlain stateT12 "T1" [eqB] "t1x" = .error .curationException :=
  ⟨by decide, by decide,
    attemptToAdd_conflicting_norm_raises ctxPlain stateT12 "T1" [eqB] "t1x" termT1
      (by decide) (by decide)⟩

end ClaimC5

section ClaimC6

/-- C6: applying the insert-or-reuse add twice with the same term norm and
target id set is idempotent when the target id set is a subset of the resulting
term's `AssociatedIdSets`: the second call is a no-op returning the state
unchanged, not an error. -/
theorem attemptToAdd_idempotent_on_subset (ctx : CPCtx) (s s' : CPState)
    (tn : String) (assoc : List EqIdSet) (syn : String) (r : CMResult)
    (t : SynonymTerm)
    (hfirst : attemptToAdd ctx s tn assoc syn = .ok (s', r))
    (hfound : mfind? s'.termsByTermNorm tn = some t)
    (hsub : assoc.toFinset ⊆ t.associatedIdSets) :
    attemptToAdd ctx s' tn assoc syn = .ok (s', .noAction) := by
  simp [attemptToAdd, hfound, hsub]

/-- The curated term registered by the first add of the C6 witness. -/
def termNew : SynonymTerm :=
  { termNorm := "NEW", terms := {"new"}, isSymbolic := false,
    mappingTypes := {"kazu_curated"}, associatedIdSets := {eqA},
    parserName := "p", aggregatedBy := .modifiedByCuration }

/-- The state after the first add of the C6 witness. -/
def stateT12new : CPState :=
  { termsByTermNorm := [("T1", termT1), ("T2", termT2), ("NEW", termNew)],
    termsById := [("A", [termT1, termNew]), ("B", [termT2])],
    curations := [], curationsById := [] }

/-- Witness for C6: adding {{A}} under the fresh norm "NEW" and then again. -/
theorem attemptToAdd_idempotent_on_subset_witness :
    attemptToAdd ctxPlain stateT12 "NEW" [eqA] "new"
      = .ok (stateT12new, .synonymTermAdded) ∧
    attemptToAdd ctxPlain stateT12new "NEW" [eqA] "new"
      = .ok (stateT12new, .noAction) :=
  ⟨by decide,
    attemptToAdd_idempotent_on_subset ctxPlain stateT12 stateT12new "NEW" [eqA]
      "new" .synonymTermAdded termNew (by decide) (by decide) (by decide)⟩

end ClaimC6

section ClaimC8

/-- C8 (evaluation at the failing input): dropping an id that no term
references raises `KeyError` — `self._terms_by_id.pop(id_to_drop)` has no
default — instead of returning the (0, 0) counts with an empty subsequent
lookup, as claimed and as the dead `is not None` check and the caller's
failed-to-drop warning intend. -/
theorem dropIdFromAllSynonymTerms_unknown_id_keyerror :
    mfind? stateT12.termsById "Z" = none ∧
    dropIdFromAllSynonymTerms stateT12 "Z" = .error .keyError := by
  exact ⟨by decide, by decide⟩

end ClaimC8

section ClaimC1Counterexample

/-- C1 counterexample: load a single term whose one `EquivalentIdSet` spans the
ids A and B, then export with a global action dropping id A.  The modified
replacement term is registered, but the superseded term object stays behind in
the by-id bucket of B, so the exported state's two indices are not mutually
consistent: the bucket of B is a strict superset of the live terms containing
B. -/
theorem curationProcessor_index_consistency_counterexample :
    initState [curDropA] [termFoo] = .ok stateFoo ∧
    (exportNerCurationsAndFinalTerms ctxDropA stateFoo).toOption.map
      (fun p => mutuallyConsistentB p.1) = some false := by
  exact ⟨by decide, by decide⟩

end ClaimC1Counterexample

section ClaimC2Counterexample

/-- C2 counterexample: the by-id index holds terms for A (id sets {{A}}) and B
(id sets {{B}}); a fresh-norm add targets both ids as {{A}, {B}}.  No existing
`AssociatedIdSets` contains all the target ids, so the claim requires the
synthesized one-`EquivalentIdSet`-per-id value {{A}, {B}}; the code instead
registers the smallest per-id match {{A}}, which does not cover id B. -/
theorem attemptToAdd_reuse_ignores_coverage_counterexample :
    (∀ t ∈ liveTerms stateT12, ¬ ("A" ∈ t.allIds ∧ "B" ∈ t.allIds)) ∧
    (attemptToAdd ctxPlain stateT12 "NEW" [eqA, eqB] "new").toOption.map
        (fun p => (mfind? p.1.termsByTermNorm "NEW").map
          (fun t => t.associatedIdSets)) = some (some {eqA}) ∧
    ({eqA} : AssocIdSets) ≠ ({eqA, eqB} : AssocIdSets) := by
  exact ⟨by decide, by decide, by decide⟩

end ClaimC2Counterexample

section ClaimC9Counterexample

/-- C9 counterexample: with mention norm "AAAA BBBB CCC" and candidates of
norms "AAAA" and "BBBB" (tied at the top length 4) and "CCC", the filter does
not return the empty set for the top-length tie as claimed: it falls through
to the next length group and returns the "CCC" candidate. -/
theorem termNormSubFilter_top_tie_counterexample :
    termNormSubFilter 3 "AAAA BBBB CCC"
        [stwmFix "AAAA", stwmFix "BBBB", stwmFix "CCC"] = [stwmFix "CCC"] ∧
    termNormSubFilter 3 "AAAA BBBB CCC"
        [stwmFix "AAAA", stwmFix "BBBB", stwmFix "CCC"] ≠ [] := by
  exact ⟨by decide, by decide⟩

end ClaimC9Counterexample

section ClaimC3

/-- The strategy loop returns the first strategy result with exactly one id set
(with its name) and falls through to the whole union otherwise. -/
theorem runStrategies_eq_find? (all : Finset EqIdSet) :
    ∀ strats : List DisambStrategy,
      (∀ n f, strats.find? (fun p => decide ((p.2 all).card = 1)) = some (n, f) →
        runStrategies all strats = (f all, some n)) ∧
      (strats.find? (fun p => decide ((p.2 all).card = 1)) = none →
        runStrategies all strats = (all, none)) := by
  intro strats
  induction strats with
  | nil => exact ⟨fun n f h => by simp at h, fun _ => rfl⟩
  | cons p rest ih =>
    obtain ⟨n0, f0⟩ := p
    by_cases hcard : (f0 all).card = 1
    · refine ⟨fun n f h => ?_, fun h => ?_⟩
      · rw [List.find?_cons_of_pos _ (by simpa using hcard)] at h
        obtain ⟨rfl, rfl⟩ := by simpa using h
        simp [runStrategies, hcard]
      · rw [List.find?_cons_of_pos _ (by simpa using hcard)] at h
        simp at h
    · refine ⟨fun n f h => ?_, fun h => ?_⟩
      · rw [List.find?_cons_of_neg _ (by simpa using hcard)] at h
        simpa [runStrategies, hcard] using (ih.1 n f h)
      · rw [List.find?_cons_of_neg _ (by simpa using hcard)] at h
        simpa [runStrategies, hcard] using (ih.2 h)

/-- Every mapping produced for a set of id sets carries the confidence it was
built with. -/
theorem confidence_of_mem_mappingsFromIdSets {env : MappingEnv}
    {pn sn : String} {ds : Option String} {conf : LinkRanks}
    {idSets : Finset EqIdSet} {m : Mapping}
    (h : m ∈ mappingsFromIdSets env pn sn ds conf idSets) :
    m.confidence = conf := by
  simp only [mappingsFromIdSets, mappingsFromIdSet, Finset.mem_biUnion,
    Finset.mem_image] at h
  obtain ⟨e, _he, p, _hp, rfl⟩ := h
  rfl

/-- C3: when more than one candidate survives the filter, or a surviving
candidate is marked ambiguous, the configured disambiguation strategies are
applied in order to the union of the candidates' `EquivalentIdSet`s: the first
strategy whose result has exactly one id set determines the surviving set and
its name is recorded; if none does, the full union survives with no name.
Every emitted mapping carries the configured confidence tier when exactly one
id set survived, and the `AMBIGUOUS` tier otherwise. -/
theorem mappingStrategy_disambiguation_chain_and_confidence
    (cfg : MSCfg) (env : MappingEnv) (stratName : String)
    (filterF : List STWM → List STWM) (terms : List STWM)
    (strats : List DisambStrategy)
    (hs : cfg.strategies = some strats)
    (hreq : disambRequired (filterF terms) = true) :
    (∀ n f,
      strats.find?
          (fun p => decide ((p.2 (unionIdSets (filterF terms))).card = 1))
        = some (n, f) →
      disambiguateIfRequired cfg (filterF terms)
        = (f (unionIdSets (filterF terms)), some n)) ∧
    (strats.find?
        (fun p => decide ((p.2 (unionIdSets (filterF terms))).card = 1)) = none →
      disambiguateIfRequired cfg (filterF terms)
        = (unionIdSets (filterF terms), none)) ∧
    (∀ m ∈ mappingStrategyCall cfg env stratName filterF terms,
      m.confidence =
        if (disambiguateIfRequired cfg (filterF terms)).1.card = 1
        then cfg.confidence else .ambiguous) := by
  have hrun := runStrategies_eq_find? (unionIdSets (filterF terms)) strats
  refine ⟨fun n f h => ?_, fun h => ?_, fun m hm => ?_⟩
  · rw [disambiguateIfRequired, hs]
    simpa [hreq] using hrun.1 n f h
  · rw [disambiguateIfRequired, hs]
    simpa [hreq] using hrun.2 h
  · rcases hd : disambiguateIfRequired cfg (filterF terms) with ⟨idSets, succ⟩
    rw [mappingStrategyCall] at hm
    simp only [hd] at hm
    by_cases hcard : idSets.card = 1
    · simpa [hcard] using confidence_of_mem_mappingsFromIdSets hm
    · simpa [hcard] using confidence_of_mem_mappingsFromIdSets hm

/-- A disambiguation strategy that never narrows. -/
def stratNone : DisambStrategy := ("S1", fun _ => (∅ : Finset EqIdSet))

/-- A disambiguation strategy that always answers {{A}}. -/
def stratA : DisambStrategy := ("S2", fun _ => ({eqA} : Finset EqIdSet))

def cfgW : MSCfg := { confidence := .probable, strategies := some [stratNone, stratA] }

def envW : MappingEnv := { labelOf := fun _ => "L", stripIdx := id }

/-- Two surviving candidates with different id sets (disambiguation required). -/
def termsW : List STWM :=
  [stwmFix "TESTIN",
   { termNorm := "GENE", parserName := "p", associatedIdSets := {eqB},
     isAmbiguous := false, isSymbolic := true, exactMatch := false,
     searchScore := none }]

/-- Witness for C3 at a concrete strategy chain: the first strategy returns no
singleton, the second returns {{A}}, which survives under the second
strategy's name. -/
theorem mappingStrategy_disambiguation_chain_and_confidence_witness :
    disambiguateIfRequired cfgW termsW = ({eqA}, some "S2") ∧
    ∀ m ∈ mappingStrategyCall cfgW envW "MS" id termsW,
      m.confidence =
        if (disambiguateIfRequired cfgW termsW).1.card = 1
        then cfgW.confidence else .ambiguous :=
  ⟨(mappingStrategy_disambiguation_chain_and_confidence cfgW envW "MS" id termsW
      [stratNone, stratA] rfl (by decide)).1 "S2" (fun _ => ({eqA} : Finset EqIdSet))
      rfl,
   (mappingStrategy_disambiguation_chain_and_confidence cfgW envW "MS" id termsW
      [stratNone, stratA] rfl (by decide)).2.2⟩

end ClaimC3

section ClaimC7

/-- C7: the case analysis of `score_and_group_ids`.  With no scorer, one
singleton `EquivalentIdSet` per (id, source) pair, strategy `NO_STRATEGY`; with
a scorer and one id, a single set, strategy `UNAMBIGUOUS`; with a scorer,
several ids and a non-symbolic synonym, all ids merged into one set, strategy
`MERGED_AS_NON_SYMBOLIC`; and on the spec's symbolic scenario (labels scoring
9/10 against threshold 7/10) one merged set with `RESOLVED_BY_SIMILARITY`,
while a score of 1/10 yields two singleton sets — in either input order. -/
theorem scoreAndGroupIds_case_analysis :
    (∀ (threshold : ℚ) (labelOf : String → String)
        (l : List (String × String)) (isSymbolic : Bool),
      (scoreAndGroupIds none threshold labelOf l isSymbolic).2 = .noStrategy ∧
      (∀ p ∈ l, ({p} : EqIdSet) ∈ (scoreAndGroupIds none threshold labelOf l isSymbolic).1) ∧
      (∀ e ∈ (scoreAndGroupIds none threshold labelOf l isSymbolic).1,
        ∃ p ∈ l, e = {p})) ∧
    (∀ (sc : String → String → ℚ) (threshold : ℚ) (labelOf : String → String)
        (l : List (String × String)) (isSymbolic : Bool),
      l.length = 1 →
      scoreAndGroupIds (some sc) threshold labelOf l isSymbolic
        = ({l.toFinset}, .unambiguous)) ∧
    (∀ (sc : String → String → ℚ) (threshold : ℚ) (labelOf : String → String)
        (l : List (String × String)),
      l.length ≠ 1 →
      scoreAndGroupIds (some sc) threshold labelOf l false
        = ({l.toFinset}, .mergedAsNonSymbolic)) ∧
    (scoreAndGroupIds (some (fun _ _ => mkRat 9 10)) (mkRat 7 10) labFix
        [pairA, pairB] true = ({eqAB}, .resolvedBySimilarity) ∧
     scoreAndGroupIds (some (fun _ _ => mkRat 9 10)) (mkRat 7 10) labFix
        [pairB, pairA] true = ({eqAB}, .resolvedBySimilarity)) ∧
    (scoreAndGroupIds (some (fun _ _ => mkRat 1 10)) (mkRat 7 10) labFix
        [pairA, pairB] true = ({eqA, eqB}, .resolvedBySimilarity) ∧
     scoreAndGroupIds (some (fun _ _ => mkRat 1 10)) (mkRat 7 10) labFix
        [pairB, pairA] true = ({eqA, eqB}, .resolvedBySimilarity)) := by
  refine ⟨?_, ?_, ?_, ⟨by decide, by decide⟩, ⟨by decide, by decide⟩⟩
  · intro threshold labelOf l isSymbolic
    refine ⟨rfl, ?_, ?_⟩
    · intro p hp
      show ({p} : EqIdSet) ∈ (l.map (fun p => ({p} : EqIdSet))).toFinset
      exact List.mem_toFinset.2 (List.mem_map_of_mem _ hp)
    · intro e he
      replace he : e ∈ (l.map (fun p => ({p} : EqIdSet))).toFinset := he
      obtain ⟨p, hp, heq⟩ := List.mem_map.1 (List.mem_toFinset.1 he)
      exact ⟨p, hp, heq.symm⟩
  · intro sc threshold labelOf l isSymbolic hlen
    simp [scoreAndGroupIds, hlen]
  · intro sc threshold labelOf l hlen
    simp [scoreAndGroupIds, hlen]

/-- Witness for C7: the no-scorer case on a two-id input and the single-id and
non-symbolic cases at concrete inputs. -/
theorem scoreAndGroupIds_case_analysis_witness :
    (({pairA} : EqIdSet) ∈
      (scoreAndGroupIds none (mkRat 7 10) labFix [pairA, pairB] true).1) ∧
    scoreAndGroupIds (some (fun _ _ => mkRat 9 10)) (mkRat 7 10) labFix
      [pairA] true = ({[pairA].toFinset}, .unambiguous) ∧
    scoreAndGroupIds (some (fun _ _ => mkRat 9 10)) (mkRat 7 10) labFix
      [pairA, pairB] false = ({[pairA, pairB].toFinset}, .mergedAsNonSymbolic) :=
  ⟨(scoreAndGroupIds_case_analysis.1 (mkRat 7 10) labFix [pairA, pairB] true).2.1
      pairA (List.mem_cons_self _ _),
   scoreAndGroupIds_case_analysis.2.1 _ (mkRat 7 10) labFix [pairA] true (by decide),
   scoreAndGroupIds_case_analysis.2.2.1 _ (mkRat 7 10) labFix [pairA, pairB]
      (by decide)⟩

end ClaimC7

section ClaimC4

/-- The non-inherited curations normalising to a given key. -/
def relevantCurations (ctx : CPCtx) (k : String) (curs : List Curation) :
    List Curation :=
  curs.filter
    (fun c => !c.sourceTerm.isSome && decide (c.curatedSynonymNorm ctx = k))

/-- Looking a key up in the grouping fold yields exactly the non-inherited
curations with that norm, appended to whatever the accumulator held. -/
theorem groupFold_lookup (ctx : CPCtx) (k : String) :
    ∀ (curs : List Curation) (g : List (String × List Curation)),
      mfind? (curs.foldl
        (fun g c =>
          if c.sourceTerm.isSome then g
          else minsert g (c.curatedSynonymNorm ctx)
            (((mfind? g (c.curatedSynonymNorm ctx)).getD []) ++ [c])) g) k
      = if relevantCurations ctx k curs = [] then mfind? g k
        else some ((mfind? g k).getD [] ++ relevantCurations ctx k curs) := by
  intro curs
  induction curs with
  | nil => intro g; simp [relevantCurations]
  | cons c rest ih =>
    intro g
    by_cases hsrc : c.sourceTerm.isSome
    · obtain ⟨v, hv⟩ := Option.isSome_iff_exists.1 hsrc
      have hrel : relevantCurations ctx k (c :: rest) = relevantCurations ctx k rest := by
        simp [relevantCurations, List.filter_cons, hv]
      rw [List.foldl_cons, if_pos hsrc, hrel, ih g]
    · have hnone : c.sourceTerm = none := Option.not_isSome_iff_eq_none.1 hsrc
      by_cases hk : c.curatedSynonymNorm ctx = k
      · have hrel : relevantCurations ctx k (c :: rest)
            = c :: relevantCurations ctx k rest := by
          simp [relevantCurations, List.filter_cons, hnone, hk]
        rw [List.foldl_cons, if_neg hsrc, hrel, ih, hk]
        have hself := mfind?_minsert_self g k ((mfind? g k).getD [] ++ [c])
        by_cases hrest : relevantCurations ctx k rest = []
        · simp [hrest, hself]
        · simp [hrest, hself]
      · have hrel : relevantCurations ctx k (c :: rest) = relevantCurations ctx k rest := by
          simp [relevantCurations, List.filter_cons, hnone, hk]
        rw [List.foldl_cons, if_neg hsrc, hrel, ih,
          mfind?_minsert_ne _ _ _ _ hk]

/-- The lookup characterisation of `groupCurationsByNorm`. -/
theorem groupCurationsByNorm_lookup (ctx : CPCtx) (k : String)
    (curs : List Curation) :
    mfind? (groupCurationsByNorm ctx curs) k
      = if relevantCurations ctx k curs = [] then none
        else some (relevantCurations ctx k curs) := by
  have h := groupFold_lookup ctx k curs []
  rw [groupCurationsByNorm]
  by_cases hrel : relevantCurations ctx k curs = [] <;>
    simp_all [mfind?]

theorem keys_nodup_minsert {α β : Type} [DecidableEq α] (m : List (α × β))
    (k : α) (v : β) (h : (m.map Prod.fst).Nodup) :
    ((minsert m k v).map Prod.fst).Nodup := by
  induction m with
  | nil => simp [minsert]
  | cons kv t ih =>
    obtain ⟨k0, v0⟩ := kv
    simp only [List.map_cons, List.nodup_cons] at h
    by_cases hk : k0 = k
    · subst hk
      simpa [minsert] using h
    · have hmem : k0 ∉ (minsert t k v).map Prod.fst := by
        intro hc
        obtain ⟨kv2, hkv2, hfst⟩ := List.mem_map.1 hc
        rcases mem_minsert hkv2 with h2 | h2
        · exact h.1 (hfst ▸ List.mem_map_of_mem Prod.fst h2)
        · rw [h2] at hfst
          exact hk hfst.symm
      simp only [minsert, if_neg hk, List.map_cons, List.nodup_cons]
      exact ⟨hmem, ih h.2⟩

/-- Keys stay duplicate-free through the grouping fold. -/
theorem groupFold_keys_nodup (ctx : CPCtx) :
    ∀ (curs : List Curation) (g : List (String × List Curation)),
      (g.map Prod.fst).Nodup →
      ((curs.foldl
        (fun g c =>
          if c.sourceTerm.isSome then g
          else minsert g (c.curatedSynonymNorm ctx)
            (((mfind? g (c.curatedSynonymNorm ctx)).getD []) ++ [c])) g).map
          Prod.fst).Nodup := by
  intro curs
  induction curs with
  | nil => intro g hg; exact hg
  | cons c rest ih =>
    intro g hg
    rw [List.foldl_cons]
    by_cases hsrc : c.sourceTerm.isSome
    · rw [if_pos hsrc]; exact ih g hg
    · rw [if_neg hsrc]
      exact ih _ (keys_nodup_minsert _ _ _ hg)

theorem mfind?_eq_of_mem_nodup {α β : Type} [DecidableEq α]
    {m : List (α × β)} {kv : α × β} (h : (m.map Prod.fst).Nodup)
    (hkv : kv ∈ m) : mfind? m kv.1 = some kv.2 := by
  induction m with
  | nil => simp at hkv
  | cons kv0 t ih =>
    obtain ⟨k0, v0⟩ := kv0
    simp only [List.map_cons, List.nodup_cons] at h
    rcases List.mem_cons.1 hkv with h2 | h2
    · subst h2
      simp [mfind?]
    · have hne : k0 ≠ kv.1 := by
        intro hc
        exact h.1 (hc ▸ List.mem_map_of_mem Prod.fst h2)
      simp only [mfind?, if_neg hne]
      exact ih h.2 h2

/-- The per-action fold of `conflictingIdSets` never removes accumulated
values. -/
theorem conflictActionFold_mono :
    ∀ (acts : List SynonymTermAction) (acc : Finset (Option AssocIdSets))
      (x : Option AssocIdSets), x ∈ acc →
      x ∈ acts.foldl
        (fun acc2 a =>
          if isAddBehaviour a.behaviour then
            insert (a.associatedIdSets.map List.toFinset) acc2
          else acc2) acc := by
  intro acts
  induction acts with
  | nil => intro acc x h; exact h
  | cons a rest ih =>
    intro acc x h
    rw [List.foldl_cons]
    by_cases hb : isAddBehaviour a.behaviour
    · exact ih _ x (by simp [hb, Finset.mem_insert, h])
    · simpa [hb] using ih _ x h

/-- An add-type action's target id sets are collected by the per-action fold. -/
theorem conflictActionFold_adds :
    ∀ (acts : List SynonymTermAction) (acc : Finset (Option AssocIdSets))
      (a : SynonymTermAction), a ∈ acts → isAddBehaviour a.behaviour = true →
      (a.associatedIdSets.map List.toFinset) ∈ acts.foldl
        (fun acc2 a =>
          if isAddBehaviour a.behaviour then
            insert (a.associatedIdSets.map List.toFinset) acc2
          else acc2) acc := by
  intro acts
  induction acts with
  | nil => intro acc a h; simp at h
  | cons a0 rest ih =>
    intro acc a h hb
    rcases List.mem_cons.1 h with h2 | h2
    · subst h2
      rw [List.foldl_cons, if_pos hb]
      exact conflictActionFold_mono rest _ _ (Finset.mem_insert_self _ _)
    · rw [List.foldl_cons]
      by_cases hb0 : isAddBehaviour a0.behaviour <;>
        simp only [if_pos, if_neg, hb0] <;> exact ih _ a h2 hb

/-- The per-curation fold of `conflictingIdSets` never removes values. -/
theorem conflictCurFold_mono :
    ∀ (grp : List Curation) (acc : Finset (Option AssocIdSets))
      (x : Option AssocIdSets), x ∈ acc →
      x ∈ grp.foldl
        (fun acc c =>
          c.actions.foldl
            (fun acc2 a =>
              if isAddBehaviour a.behaviour then
                insert (a.associatedIdSets.map List.toFinset) acc2
              else acc2) acc) acc := by
  intro grp
  induction grp with
  | nil => intro acc x h; exact h
  | cons c rest ih =>
    intro acc x h
    rw [List.foldl_cons]
    exact ih _ x (conflictActionFold_mono c.actions acc x h)

/-- An add-type action of any group member contributes its target id sets to
the per-curation fold. -/
theorem conflictCurFold_adds :
    ∀ (grp : List Curation) (acc : Finset (Option AssocIdSets)) (c : Curation)
      (a : SynonymTermAction), c ∈ grp → a ∈ c.actions →
      isAddBehaviour a.behaviour = true →
      (a.associatedIdSets.map List.toFinset) ∈ grp.foldl
        (fun acc c =>
          c.actions.foldl
            (fun acc2 a =>
              if isAddBehaviour a.behaviour then
                insert (a.associatedIdSets.map List.toFinset) acc2
              else acc2) acc) acc := by
  intro grp
  induction grp with
  | nil => intro acc c a hc; simp at hc
  | cons c0 rest ih =>
    intro acc c a hc ha hb
    rw [List.foldl_cons]
    rcases List.mem_cons.1 hc with h2 | h2
    · subst h2
      exact conflictCurFold_mono rest _ _ (conflictActionFold_adds c.actions acc a ha hb)
    · exact ih _ c a h2 ha hb

/-- Any add-type action of a group member contributes its target id sets to
`conflictingIdSets`. -/
theorem mem_conflictingIdSets {grp : List Curation} {c : Curation}
    {a : SynonymTermAction} (hc : c ∈ grp) (ha : a ∈ c.actions)
    (hb : isAddBehaviour a.behaviour = true) :
    (a.associatedIdSets.map List.toFinset) ∈ conflictingIdSets grp :=
  conflictCurFold_adds grp ∅ c a hc ha hb

/-- C4: two non-inherited curations that normalise to the same term norm but
carry add-type actions targeting different `AssociatedIdSets` both land in one
conflicting set; neither reaches the safe set nor the list of curations that
`_process_curations` applies to the database; and every curation with a
`source_term` is classified safe. -/
theorem conflicting_add_curations_excluded (ctx : CPCtx) (curs : List Curation)
    (c1 c2 : Curation) (a1 a2 : SynonymTermAction)
    (h1 : c1 ∈ curs) (h2 : c2 ∈ curs)
    (hs1 : c1.sourceTerm = none) (hs2 : c2.sourceTerm = none)
    (hnorm : c1.curatedSynonymNorm ctx = c2.curatedSynonymNorm ctx)
    (ha1 : a1 ∈ c1.actions) (ha2 : a2 ∈ c2.actions)
    (hb1 : isAddBehaviour a1.behaviour = true)
    (hb2 : isAddBehaviour a2.behaviour = true)
    (hne : a1.associatedIdSets.map List.toFinset
      ≠ a2.associatedIdSets.map List.toFinset) :
    (∃ grp ∈ (analyseConflicts ctx curs).2, c1 ∈ grp ∧ c2 ∈ grp) ∧
    c1 ∉ (analyseConflicts ctx curs).1 ∧ c2 ∉ (analyseConflicts ctx curs).1 ∧
    c1 ∉ sortedSafeCurations ctx curs ∧ c2 ∉ sortedSafeCurations ctx curs ∧
    (∀ c ∈ curs, c.sourceTerm.isSome → c ∈ (analyseConflicts ctx curs).1) := by
  have knodup := groupFold_keys_nodup ctx curs [] (by simp)
  set k := c1.curatedSynonymNorm ctx with hkdef
  set grp := relevantCurations ctx k curs with hgrpdef
  have hc1grp : c1 ∈ grp := by
    rw [hgrpdef, relevantCurations, List.mem_filter]
    exact ⟨h1, by simp [hs1]⟩
  have hc2grp : c2 ∈ grp := by
    rw [hgrpdef, relevantCurations, List.mem_filter]
    exact ⟨h2, by simp [hs2, ← hnorm]⟩
  have hgrpne : grp ≠ [] := fun hc => by rw [hc] at hc1grp; simp at hc1grp
  have hlookup : mfind? (groupCurationsByNorm ctx curs) k = some grp := by
    rw [groupCurationsByNorm_lookup, ← hgrpdef, if_neg hgrpne]
  have hconf : 1 < (conflictingIdSets grp).card :=
    Finset.one_lt_card.2
      ⟨_, mem_conflictingIdSets hc1grp ha1 hb1,
       _, mem_conflictingIdSets hc2grp ha2 hb2, hne⟩
  have hsafe : (analyseConflicts ctx curs).1
      = curs.filter (fun c => c.sourceTerm.isSome) ++
        ((groupCurationsByNorm ctx curs).filter
          (fun kv => ¬ 1 < (conflictingIdSets kv.2).card)).flatMap
          (fun kv => kv.2) := rfl
  have hconfs : (analyseConflicts ctx curs).2
      = ((groupCurationsByNorm ctx curs).filter
          (fun kv => 1 < (conflictingIdSets kv.2).card)).map (fun kv => kv.2) := rfl
  have hnotsafe : ∀ c ∈ grp, c ∉ (analyseConflicts ctx curs).1 := by
    intro c hcgrp hmem
    rw [hsafe] at hmem
    have hcnone : c.sourceTerm = none ∧ c.curatedSynonymNorm ctx = k := by
      have := (List.mem_filter.1 (hgrpdef ▸ hcgrp)).2
      simpa [relevantCurations] using this
    rcases List.mem_append.1 hmem with hmem | hmem
    · have := (List.mem_filter.1 hmem).2
      rw [hcnone.1] at this
      simp at this
    · obtain ⟨kv, hkvmem, hcin⟩ := List.mem_flatMap.1 hmem
      have hkv2 := (List.mem_filter.1 hkvmem).1
      have hnp := (List.mem_filter.1 hkvmem).2
      have hkvlookup : mfind? (groupCurationsByNorm ctx curs) kv.1 = some kv.2 :=
        mfind?_eq_of_mem_nodup (by simpa [groupCurationsByNorm] using knodup) hkv2
      rw [groupCurationsByNorm_lookup] at hkvlookup
      by_cases hrel : relevantCurations ctx kv.1 curs = []
      · rw [if_pos hrel] at hkvlookup; simp at hkvlookup
      · rw [if_neg hrel] at hkvlookup
        have hkv2eq : kv.2 = relevantCurations ctx kv.1 curs := by
          exact (Option.some.injEq _ _ ▸ hkvlookup).symm
        have hck : c.curatedSynonymNorm ctx = kv.1 := by
          have hpred := (List.mem_filter.1 (hkv2eq ▸ hcin)).2
          have : c.sourceTerm = none ∧ c.curatedSynonymNorm ctx = kv.1 := by
            simpa using hpred
          exact this.2
        have hkeq : kv.1 = k := by rw [← hck, hcnone.2]
        have : kv.2 = grp := by rw [hkv2eq, hkeq, ← hgrpdef]
        rw [this] at hnp
        simp [hconf] at hnp
  have hc1safe := hnotsafe c1 hc1grp
  have hc2safe := hnotsafe c2 hc2grp
  have hss : ∀ c, c ∉ (analyseConflicts ctx curs).1 → c ∉ sortedSafeCurations ctx curs := by
    intro c hns hmem
    rw [sortedSafeCurations] at hmem
    rcases List.mem_append.1 hmem with hmem | hmem
    · exact hns (List.mem_filter.1 hmem).1
    · exact hns (List.mem_filter.1 hmem).1
  refine ⟨?_, hc1safe, hc2safe, hss c1 hc1safe, hss c2 hc2safe, ?_⟩
  · refine ⟨grp, ?_, hc1grp, hc2grp⟩
    rw [hconfs]
    exact List.mem_map.2 ⟨(k, grp),
      List.mem_filter.2 ⟨mfind?_mem hlookup, by simpa using hconf⟩, rfl⟩
  · intro c hc hsome
    rw [hsafe]
    exact List.mem_append.2 (Or.inl (List.mem_filter.2 ⟨hc, by simpa using hsome⟩))

end ClaimC4

section ClaimC4Witness

/-- An add curation for "x" targeting {{A}}. -/
def curAddA : Curation :=
  { cid := "a1", curatedSynonym := "x", sourceTerm := none,
    actions := [{ behaviour := .addForNerAndLinking, associatedIdSets := some [eqA] }] }

/-- An add curation for "x" targeting {{B}}. -/
def curAddB : Curation :=
  { cid := "a2", curatedSynonym := "x", sourceTerm := none,
    actions := [{ behaviour := .addForLinkingOnly, associatedIdSets := some [eqB] }] }

/-- Witness for C4: the two conflicting adds for the norm "x". -/
theorem conflicting_add_curations_excluded_witness :
    (∃ grp ∈ (analyseConflicts ctxPlain [curAddA, curAddB]).2,
      curAddA ∈ grp ∧ curAddB ∈ grp) ∧
    curAddA ∉ (analyseConflicts ctxPlain [curAddA, curAddB]).1 ∧
    curAddB ∉ (analyseConflicts ctxPlain [curAddA, curAddB]).1 ∧
    curAddA ∉ sortedSafeCurations ctxPlain [curAddA, curAddB] ∧
    curAddB ∉ sortedSafeCurations ctxPlain [curAddA, curAddB] ∧
    (∀ c ∈ [curAddA, curAddB], c.sourceTerm.isSome →
      c ∈ (analyseConflicts ctxPlain [curAddA, curAddB]).1) :=
  conflicting_add_curations_excluded ctxPlain [curAddA, curAddB] curAddA curAddB
    (curAddA.actions.head (by decide)) (curAddB.actions.head (by decide))
    (by decide) (by decide) rfl rfl rfl
    (by decide) (by decide) (by decide) (by decide) (by decide)

end ClaimC4Witness

section ClaimC2

/-- `minByCard` never fails on a nonempty list. -/
theorem minByCard_ne_none (a : AssocIdSets) (rest : List AssocIdSets) :
    minByCard (a :: rest) ≠ none := by
  rw [minByCard]
  cases minByCard rest with
  | none => simp
  | some m => by_cases h : m.card < a.card <;> simp [h]

/-- `minByCard` returns a member of minimal cardinality. -/
theorem minByCard_spec :
    ∀ (l : List AssocIdSets) (m : AssocIdSets), minByCard l = some m →
      m ∈ l ∧ ∀ x ∈ l, m.card ≤ x.card := by
  intro l
  induction l with
  | nil => intro m h; simp [minByCard] at h
  | cons a rest ih =>
    intro m h
    rw [minByCard] at h
    cases hrec : minByCard rest with
    | none =>
      rw [hrec] at h
      cases hr : rest with
      | nil =>
        simp at h
        subst h
        simp
      | cons b rs => exact absurd (hr ▸ hrec) (minByCard_ne_none b rs)
    | some m0 =>
      rw [hrec] at h
      dsimp only at h
      obtain ⟨hm0, hb0⟩ := ih m0 hrec
      by_cases hlt : m0.card < a.card
      · rw [if_pos hlt] at h
        obtain rfl : m0 = m := by simpa using h
        exact ⟨List.mem_cons_of_mem _ hm0,
          fun x hx => by
            rcases List.mem_cons.1 hx with rfl | hx
            · exact hlt.le
            · exact hb0 x hx⟩
      · rw [if_neg hlt] at h
        obtain rfl : a = m := by simpa using h
        exact ⟨List.mem_cons_self _ _,
          fun x hx => by
            rcases List.mem_cons.1 hx with rfl | hx
            · exact le_rfl
            · exact le_trans (not_lt.1 hlt) (hb0 x hx)⟩

/-- The reuse-search characterisation: a successful search returns the
`AssociatedIdSets` of some term indexed under one of the target ids, of
cardinality minimal across all candidates of all target ids (and bounded by the
starting accumulator), failing back to the accumulator only when there are no
ids. -/
theorem searchReuse_ok_spec (s : CPState) :
    ∀ (ids : List String) (acc r : Option AssocIdSets),
      searchReuse s ids acc = .ok r →
      (∀ m, r = some m →
        ((∃ i ∈ ids, m ∈ assocSetsForId s i) ∨ acc = some m) ∧
        (∀ i ∈ ids, ∀ S ∈ assocSetsForId s i, m.card ≤ S.card) ∧
        (∀ m0, acc = some m0 → m.card ≤ m0.card)) ∧
      (r = none → acc = none ∧ ids = []) := by
  intro ids
  induction ids with
  | nil =>
    intro acc r h
    rw [searchReuse] at h
    obtain rfl : acc = r := by simpa using h
    refine ⟨fun m hm => ⟨Or.inr hm, by simp, fun m0 h0 => ?_⟩, fun hr => ⟨hr, rfl⟩⟩
    rw [hm] at h0
    obtain rfl : m = m0 := by simpa using h0
    exact le_rfl
  | cons i rest ih =>
    intro acc r h
    rw [searchReuse] at h
    cases hmin : minByCard (assocSetsForId s i) with
    | none => rw [hmin] at h; simp at h
    | some mi =>
      rw [hmin] at h
      obtain ⟨hmiMem, hmiMin⟩ := minByCard_spec _ mi hmin
      cases hacc : acc with
      | none =>
        rw [hacc] at h
        have spec := ih (some mi) r h
        refine ⟨fun m hm => ?_, fun hr => ?_⟩
        · obtain ⟨hsrc, hbnd, hacc2⟩ := spec.1 m hm
          have hmmi : m.card ≤ mi.card := hacc2 mi rfl
          refine ⟨?_, ?_, by simp⟩
          · rcases hsrc with ⟨i', hi', hmem⟩ | hsome
            · exact Or.inl ⟨i', List.mem_cons_of_mem _ hi', hmem⟩
            · obtain rfl : mi = m := by simpa using hsome
              exact Or.inl ⟨i, List.mem_cons_self _ _, hmiMem⟩
          · intro i' hi' S hS
            rcases List.mem_cons.1 hi' with rfl | hi'
            · exact le_trans hmmi (hmiMin S hS)
            · exact hbnd i' hi' S hS
        · obtain ⟨hbad, _⟩ := spec.2 hr
          simp at hbad
      | some cur =>
        rw [hacc] at h
        have spec := ih (some (if mi.card < cur.card then mi else cur)) r h
        refine ⟨fun m hm => ?_, fun hr => ?_⟩
        · obtain ⟨hsrc, hbnd, hacc2⟩ := spec.1 m hm
          have hmnew : m.card ≤ (if mi.card < cur.card then mi else cur).card :=
            hacc2 _ rfl
          have hnewmi : (if mi.card < cur.card then mi else cur).card ≤ mi.card := by
            by_cases hlt : mi.card < cur.card
            · simp [hlt]
            · simp [hlt, not_lt.1 hlt]
          have hnewcur : (if mi.card < cur.card then mi else cur).card ≤ cur.card := by
            by_cases hlt : mi.card < cur.card
            · simp [hlt, hlt.le]
            · simp [hlt]
          refine ⟨?_, ?_, ?_⟩
          · rcases hsrc with ⟨i', hi', hmem⟩ | hsome
            · exact Or.inl ⟨i', List.mem_cons_of_mem _ hi', hmem⟩
            · by_cases hlt : mi.card < cur.card
              · rw [if_pos hlt] at hsome
                obtain rfl : mi = m := by simpa using hsome
                exact Or.inl ⟨i, List.mem_cons_self _ _, hmiMem⟩
              · rw [if_neg hlt] at hsome
                obtain rfl : cur = m := by simpa using hsome
                exact Or.inr rfl
          · intro i' hi' S hS
            rcases List.mem_cons.1 hi' with rfl | hi'
            · exact le_trans hmnew (le_trans hnewmi (hmiMin S hS))
            · exact hbnd i' hi' S hS
          · intro m0 h0
            obtain rfl : cur = m0 := by simpa using h0
            exact le_trans hmnew hnewcur
        · obtain ⟨hbad, _⟩ := spec.2 hr
          simp at hbad

/-- C2 (amended): for an add-type curation with a fresh term norm and a
nonempty target id set, the registered term's `AssociatedIdSets` is an
`AssociatedIdSets` of some existing term indexed under one of the individual
target ids, of minimal cardinality among all such candidates — the search does
not require (and does not guarantee) that the chosen set contains all the
target ids, and the synthesize-per-id branch is unreachable. -/
theorem attemptToAdd_fresh_uses_minimal_existing_assoc
    (ctx : CPCtx) (s s' : CPState) (tn : String) (assoc : List EqIdSet)
    (syn : String) (r : CMResult)
    (hfresh : mfind? s.termsByTermNorm tn = none)
    (hids : idsOfAssocList assoc ≠ [])
    (hok : attemptToAdd ctx s tn assoc syn = .ok (s', r)) :
    r = .synonymTermAdded ∧
    ∃ nt, mfind? s'.termsByTermNorm tn = some nt ∧
      nt.termNorm = tn ∧ nt.aggregatedBy = .modifiedByCuration ∧
      (∃ i ∈ idsOfAssocList assoc, nt.associatedIdSets ∈ assocSetsForId s i) ∧
      (∀ i ∈ idsOfAssocList assoc, ∀ S ∈ assocSetsForId s i,
        nt.associatedIdSets.card ≤ S.card) := by
  rw [attemptToAdd, hfresh] at hok
  cases hsr : searchReuse s (idsOfAssocList assoc) none with
  | error e => rw [hsr] at hok; simp [Except.bind] at hok
  | ok reuse =>
    rw [hsr] at hok
    have spec := searchReuse_ok_spec s (idsOfAssocList assoc) none reuse hsr
    cases reuse with
    | none => exact absurd (spec.2 rfl).2 hids
    | some m =>
      obtain ⟨hsrc, hbnd, _⟩ := spec.1 m rfl
      have hsrc' : ∃ i ∈ idsOfAssocList assoc, m ∈ assocSetsForId s i := by
        rcases hsrc with h | h
        · exact h
        · simp at h
      simp only [Except.bind, updateTermLookups, hfresh] at hok
      simp at hok
      obtain ⟨hs', hr⟩ := hok
      refine ⟨hr.symm, ?_⟩
      refine ⟨{ termNorm := tn, terms := {syn},
                isSymbolic := ctx.classifySymbolic syn,
                mappingTypes := {"kazu_curated"}, associatedIdSets := m,
                parserName := ctx.parserName,
                aggregatedBy := .modifiedByCuration },
              ?_, rfl, rfl, hsrc', hbnd⟩
      rw [← hs']
      exact mfind?_minsert_self _ _ _

end ClaimC2

section ClaimC9

/-- The length key of a group (0 for the empty list, which `splitBy` never
produces). -/
def keyOf (g : List (STWM × Nat)) : Nat := g.head?.elim 0 (fun x => x.2)

/-- Chained key equality makes the whole group share the head's key. -/
theorem key_eq_of_chain :
    ∀ (gs : List (STWM × Nat)) (a : STWM × Nat),
      List.Chain' (fun x y => sameLen x y = true) (a :: gs) →
      ∀ x ∈ a :: gs, x.2 = a.2 := by
  intro gs
  induction gs with
  | nil =>
    intro a _ x hx
    obtain rfl : x = a := by simpa using hx
    rfl
  | cons b rest ih =>
    intro a hch x hx
    obtain ⟨hab, hrest⟩ := List.chain'_cons'.1 hch
    have hab2 : b.2 = a.2 := by
      have h2 : a.2 = b.2 := by
        simpa [sameLen, Nat.beq_eq_true_eq] using hab b rfl
      exact h2.symm
    rcases List.mem_cons.1 hx with rfl | hx
    · rfl
    · rw [ih b hrest x hx]
      exact hab2

/-- Every element of a `splitBy sameLen` group carries the group's key. -/
theorem key_const_of_mem_splitBy {l : List (STWM × Nat)}
    {g : List (STWM × Nat)} (hg : g ∈ l.splitBy sameLen) :
    ∀ x ∈ g, x.2 = keyOf g := by
  have hch := List.chain'_of_mem_splitBy hg
  cases g with
  | nil => intro x hx; simp at hx
  | cons a gs =>
    intro x hx
    rw [key_eq_of_chain gs a hch x hx]
    rfl

theorem chain'_and {α : Type} {R S : α → α → Prop} :
    ∀ {l : List α}, List.Chain' R l → List.Chain' S l →
      List.Chain' (fun a b => R a b ∧ S a b) l := by
  intro l
  induction l with
  | nil => intro _ _; exact List.chain'_nil
  | cons a rest ih =>
    intro hr hs
    obtain ⟨hr1, hr2⟩ := List.chain'_cons'.1 hr
    obtain ⟨hs1, hs2⟩ := List.chain'_cons'.1 hs
    exact List.chain'_cons'.2 ⟨fun y hy => ⟨hr1 y hy, hs1 y hy⟩, ih hr2 hs2⟩

theorem chain'_imp_mem {α : Type} {R S : α → α → Prop} :
    ∀ {l : List α}, (∀ a ∈ l, ∀ b ∈ l, R a b → S a b) →
      List.Chain' R l → List.Chain' S l := by
  intro l
  induction l with
  | nil => intro _ _; exact List.chain'_nil
  | cons a rest ih =>
    intro himp hr
    obtain ⟨hr1, hr2⟩ := List.chain'_cons'.1 hr
    refine List.chain'_cons'.2 ⟨fun y hy => ?_, ?_⟩
    · exact himp a (List.mem_cons_self _ _) y
        (List.mem_cons_of_mem _ (List.mem_of_mem_head? hy)) (hr1 y hy)
    · exact ih (fun x hx y hy h =>
        himp x (List.mem_cons_of_mem _ hx) y (List.mem_cons_of_mem _ hy) h) hr2

/-- Strictly descending group keys. -/
def keyGtR (g1 g2 : List (STWM × Nat)) : Prop := keyOf g2 < keyOf g1

instance : IsTrans (List (STWM × Nat)) keyGtR :=
  ⟨fun _ _ _ hab hbc => Nat.lt_trans hbc hab⟩

/-- The groups of a descending-sorted list have pairwise strictly descending
keys. -/
theorem splitBy_keys_pairwise {l : List (STWM × Nat)}
    (hs : List.Sorted lenDescR l) :
    (l.splitBy sameLen).Pairwise keyGtR := by
  have hflat : (l.splitBy sameLen).flatten = l := List.flatten_splitBy _ _
  have hs' : List.Pairwise lenDescR (l.splitBy sameLen).flatten := by
    rw [hflat]
    exact hs
  have hcross : (l.splitBy sameLen).Pairwise
      (fun l1 l2 => ∀ x ∈ l1, ∀ y ∈ l2, lenDescR x y) :=
    (List.pairwise_flatten.1 hs').2
  have hbound := List.chain'_getLast_head_splitBy sameLen l
  have hcombined := chain'_and hbound hcross.chain'
  rw [← List.chain'_iff_pairwise]
  refine chain'_imp_mem (fun a ha b hb h => ?_) hcombined
  obtain ⟨⟨hane, hbne, hfalse⟩, hle⟩ := h
  have hka : (a.getLast hane).2 = keyOf a :=
    key_const_of_mem_splitBy ha _ (List.getLast_mem hane)
  have hkb : (b.head hbne).2 = keyOf b :=
    key_const_of_mem_splitBy hb _ (List.head_mem hbne)
  have hlbk : keyOf b ≤ keyOf a := by
    rw [← hka, ← hkb]
    exact hle _ (List.getLast_mem hane) _ (List.head_mem hbne)
  have hne : (a.getLast hane).2 ≠ (b.head hbne).2 := by
    intro hc
    rw [sameLen] at hfalse
    simp [hc] at hfalse
  rw [keyGtR]
  rcases Nat.lt_or_ge (keyOf b) (keyOf a) with h | h
  · exact h
  · exact absurd (le_antisymm hlbk h) (fun hc => hne (by rw [hka, hkb, hc]))

/-- Counting elements with a given key across groups of constant pairwise
distinct keys: zero when no group has the key, the group's size when one has. -/
theorem flatten_countP_key :
    ∀ (gs : List (List (STWM × Nat))) (L : Nat),
      (∀ g ∈ gs, ∀ x ∈ g, x.2 = keyOf g) →
      gs.Pairwise keyGtR →
      ((∀ g ∈ gs, keyOf g ≠ L) →
        gs.flatten.countP (fun x => x.2 == L) = 0) ∧
      (∀ g ∈ gs, keyOf g = L →
        gs.flatten.countP (fun x => x.2 == L) = g.length) := by
  intro gs
  induction gs with
  | nil => intro L _ _; exact ⟨fun _ => rfl, by simp⟩
  | cons g0 rest ih =>
    intro L hconst hpw
    have hpw1 := (List.pairwise_cons.1 hpw).1
    have hpw2 := (List.pairwise_cons.1 hpw).2
    have ihL := ih L (fun g hg => hconst g (List.mem_cons_of_mem _ hg)) hpw2
    have hflat : (g0 :: rest).flatten = g0 ++ rest.flatten := rfl
    have hcnt0 : keyOf g0 ≠ L → g0.countP (fun x => x.2 == L) = 0 := by
      intro hne
      refine List.countP_eq_zero.2 (fun x hx => ?_)
      have := hconst g0 (List.mem_cons_self _ _) x hx
      simp [this, hne]
    have hcntFull : keyOf g0 = L → g0.countP (fun x => x.2 == L) = g0.length := by
      intro heq
      refine List.countP_eq_length.2 (fun x hx => ?_)
      have := hconst g0 (List.mem_cons_self _ _) x hx
      simp [this, heq]
    constructor
    · intro hnone
      rw [hflat, List.countP_append,
        hcnt0 (hnone g0 (List.mem_cons_self _ _)),
        ihL.1 (fun g hg => hnone g (List.mem_cons_of_mem _ hg))]
    · intro g hg hkey
      rcases List.mem_cons.1 hg with rfl | hg
      · rw [hflat, List.countP_append, hcntFull hkey]
        have hrest0 : rest.flatten.countP (fun x => x.2 == L) = 0 := by
          refine ihL.1 (fun g' hg' => ?_)
          have := hpw1 g' hg'
          rw [keyGtR, hkey] at this
          exact fun hc => absurd (hc ▸ this) (lt_irrefl L)
        rw [hrest0]
        simp
      · rw [hflat, List.countP_append]
        have h0 : g0.countP (fun x => x.2 == L) = 0 := by
          refine hcnt0 (fun hc => ?_)
          have := hpw1 g hg
          rw [keyGtR, hc, hkey] at this
          exact lt_irrefl L this
        rw [h0, ihL.2 g hg hkey]
        simp

/-- The first singleton group returned by the scan, among groups of pairwise
strictly descending keys: it is a member, and every group of a larger key is
not a singleton; when the scan fails, no group is a singleton. -/
theorem scanGroups :
    ∀ (gs : List (List (STWM × Nat))), gs.Pairwise keyGtR →
      (gs.find? (fun g => decide (g.length = 1)) = none →
        ∀ g ∈ gs, g.length ≠ 1) ∧
      (∀ g, gs.find? (fun g => decide (g.length = 1)) = some g →
        g ∈ gs ∧ g.length = 1 ∧
        ∀ g' ∈ gs, keyOf g < keyOf g' → g'.length ≠ 1) := by
  intro gs
  induction gs with
  | nil => intro _; exact ⟨fun _ g hg => by simp at hg, fun g hg => by simp at hg⟩
  | cons g0 rest ih =>
    intro hpw
    have hpw1 := (List.pairwise_cons.1 hpw).1
    have ihr := ih (List.pairwise_cons.1 hpw).2
    by_cases hlen : g0.length = 1
    · refine ⟨fun hnone => ?_, fun g hfind => ?_⟩
      · rw [List.find?_cons_of_pos _ (by simpa using hlen)] at hnone
        simp at hnone
      · rw [List.find?_cons_of_pos _ (by simpa using hlen)] at hfind
        obtain rfl : g0 = g := by simpa using hfind
        refine ⟨List.mem_cons_self _ _, hlen, fun g' hg' hk => ?_⟩
        rcases List.mem_cons.1 hg' with rfl | hg'
        · exact absurd hk (lt_irrefl _)
        · exact absurd (Nat.lt_trans hk (hpw1 g' hg')) (lt_irrefl _)
    · refine ⟨fun hnone => ?_, fun g hfind => ?_⟩
      · rw [List.find?_cons_of_neg _ (by simpa using hlen)] at hnone
        intro g hg
        rcases List.mem_cons.1 hg with rfl | hg
        · exact hlen
        · exact ihr.1 hnone g hg
      · rw [List.find?_cons_of_neg _ (by simpa using hlen)] at hfind
        obtain ⟨hmem, hone, hrest⟩ := ihr.2 g hfind
        refine ⟨List.mem_cons_of_mem _ hmem, hone, fun g' hg' hk => ?_⟩
        rcases List.mem_cons.1 hg' with rfl | hg'
        · exact hlen
        · exact hrest g' hg' hk

/-- The characterisation of the first-singleton-group scan over a sorted
permutation of the matched terms paired with their lengths. -/
theorem firstSingleton_core (M : List STWM) (S : List (STWM × Nat)) :
    S.Perm (M.map (fun t => (t, t.termNorm.length))) →
    List.Sorted lenDescR S →
    ((match (S.splitBy sameLen).find? (fun g => decide (g.length = 1)) with
      | some (x :: _) => [x.1]
      | _ => ([] : List STWM)) = [] →
      ∀ L, M.countP (fun t => t.termNorm.length == L) ≠ 1) ∧
    (∀ t, (match (S.splitBy sameLen).find? (fun g => decide (g.length = 1)) with
      | some (x :: _) => [x.1]
      | _ => ([] : List STWM)) = [t] →
      t ∈ M ∧ M.countP (fun u => u.termNorm.length == t.termNorm.length) = 1 ∧
      ∀ u ∈ M, t.termNorm.length < u.termNorm.length →
        2 ≤ M.countP (fun v => v.termNorm.length == u.termNorm.length)) := by
  intro hperm hsorted
  have hflat : (S.splitBy sameLen).flatten = S := List.flatten_splitBy _ _
  have hconst : ∀ g ∈ S.splitBy sameLen, ∀ x ∈ g, x.2 = keyOf g :=
    fun g hg => key_const_of_mem_splitBy hg
  have hpw : (S.splitBy sameLen).Pairwise keyGtR := splitBy_keys_pairwise hsorted
  have hcount : ∀ L, S.countP (fun x => x.2 == L)
      = M.countP (fun t => t.termNorm.length == L) := by
    intro L
    rw [hperm.countP_eq, List.countP_map]
    rfl
  have hkey := flatten_countP_key (S.splitBy sameLen)
  have hLfull : ∀ g ∈ S.splitBy sameLen,
      M.countP (fun t => t.termNorm.length == keyOf g) = g.length := by
    intro g hg
    rw [← hcount, ← hflat]
    exact ((hkey (keyOf g) hconst hpw).2 g hg rfl)
  have hLzero : ∀ L, (∀ g ∈ S.splitBy sameLen, keyOf g ≠ L) →
      M.countP (fun t => t.termNorm.length == L) = 0 := by
    intro L hnone
    rw [← hcount, ← hflat]
    exact (hkey L hconst hpw).1 hnone
  have hscan := scanGroups (S.splitBy sameLen) hpw
  constructor
  · intro hres L
    cases hf : (S.splitBy sameLen).find? (fun g => decide (g.length = 1)) with
    | some g =>
      obtain ⟨hmem, hone, _⟩ := hscan.2 g hf
      obtain ⟨x, rfl⟩ := List.length_eq_one.1 hone
      rw [hf] at hres
      simp at hres
    | none =>
      have hnone := hscan.1 hf
      by_cases hex : ∃ g ∈ S.splitBy sameLen, keyOf g = L
      · obtain ⟨g, hg, hkeyg⟩ := hex
        rw [← hkeyg, hLfull g hg]
        exact hnone g hg
      · push_neg at hex
        rw [hLzero L hex]
        exact Nat.zero_ne_one
  · intro t hres
    cases hf : (S.splitBy sameLen).find? (fun g => decide (g.length = 1)) with
    | none => rw [hf] at hres; simp at hres
    | some g =>
      obtain ⟨hmem, hone, hbefore⟩ := hscan.2 g hf
      obtain ⟨x, rfl⟩ := List.length_eq_one.1 hone
      rw [hf] at hres
      have hxt : x.1 = t := by simpa using hres
      have hxS : x ∈ S := by
        rw [← hflat]
        exact List.mem_flatten.2 ⟨[x], hmem, List.mem_singleton_self _⟩
      obtain ⟨t', ht'M, heq⟩ := List.mem_map.1 (hperm.mem_iff.1 hxS)
      have ht1 : t' = x.1 := congrArg Prod.fst heq
      have ht2 : x.2 = t'.termNorm.length := (congrArg Prod.snd heq).symm
      have htM : t ∈ M := by rw [← hxt, ← ht1]; exact ht'M
      have hkeyx : keyOf [x] = t.termNorm.length := by
        rw [keyOf]
        show x.2 = t.termNorm.length
        rw [ht2, ht1, hxt]
      refine ⟨htM, ?_, ?_⟩
      · have := hLfull [x] hmem
        rw [hkeyx] at this
        simpa using this
      · intro u huM hlt
        have huS : (u, u.termNorm.length) ∈ S :=
          hperm.mem_iff.2 (List.mem_map_of_mem _ huM)
        rw [← hflat] at huS
        obtain ⟨g', hg', hug'⟩ := List.mem_flatten.1 huS
        have hkeyg' : keyOf g' = u.termNorm.length :=
          (hconst g' hg' _ hug').symm
        have hne1 : g'.length ≠ 1 := by
          refine hbefore g' hg' ?_
          rw [hkeyx, hkeyg']
          exact hlt
        have hne0 : g' ≠ [] := List.ne_nil_of_mem_splitBy _ hg'
        have := hLfull g' hg'
        rw [hkeyg'] at this
        rw [this]
        have hpos : 0 < g'.length := List.length_pos.2 hne0
        omega

/-- C9 (amended): `TermNormIsSubstring.filter_terms` scans the length groups of
the matched candidates in decreasing order and returns the first group with
exactly one member: the returned candidate is a matched term that is unique
among matches of its length, and every strictly longer matched length has two
or more matches (so a unique longest match is returned; but a tie at the top
length falls through to shorter groups instead of producing the empty set, and
the result is empty only when every length group has at least two members). -/
theorem termNormSubFilter_first_singleton_group
    (minLen : Nat) (norm : String) (terms : List STWM) :
    (termNormSubFilter minLen norm terms = [] →
      ∀ L, (termNormSubMatches minLen norm terms).countP
        (fun t => t.termNorm.length == L) ≠ 1) ∧
    (∀ t, termNormSubFilter minLen norm terms = [t] →
      t ∈ termNormSubMatches minLen norm terms ∧
      (termNormSubMatches minLen norm terms).countP
        (fun u => u.termNorm.length == t.termNorm.length) = 1 ∧
      ∀ u ∈ termNormSubMatches minLen norm terms,
        t.termNorm.length < u.termNorm.length →
        2 ≤ (termNormSubMatches minLen norm terms).countP
          (fun v => v.termNorm.length == u.termNorm.length)) :=
  firstSingleton_core (termNormSubMatches minLen norm terms)
    (((termNormSubMatches minLen norm terms).map
      (fun t => (t, t.termNorm.length))).insertionSort lenDescR)
    (List.perm_insertionSort _ _) (List.sorted_insertionSort _ _)

/-- Witness for C9 at the spec's own scenario: mention norm "TESTIN GENE" with
candidates "TESTIN" (length 6, unique at the top) and "GENE". -/
theorem termNormSubFilter_first_singleton_group_witness :
    stwmFix "TESTIN" ∈ termNormSubMatches 3 "TESTIN GENE"
      [stwmFix "TESTIN", stwmFix "GENE"] ∧
    (termNormSubMatches 3 "TESTIN GENE"
      [stwmFix "TESTIN", stwmFix "GENE"]).countP
        (fun u => u.termNorm.length == (stwmFix "TESTIN").termNorm.length) = 1 :=
  ⟨((termNormSubFilter_first_singleton_group 3 "TESTIN GENE"
      [stwmFix "TESTIN", stwmFix "GENE"]).2 (stwmFix "TESTIN") (by decide)).1,
   ((termNormSubFilter_first_singleton_group 3 "TESTIN GENE"
      [stwmFix "TESTIN", stwmFix "GENE"]).2 (stwmFix "TESTIN") (by decide)).2.1⟩

end ClaimC9

section ClaimC2Witness

/-- Witness for the amended C2: the fresh-norm add targeting ids A and B reuses
the smallest per-id candidate {{A}} (of minimal cardinality 1). -/
theorem attemptToAdd_fresh_uses_minimal_existing_assoc_witness :
    CMResult.synonymTermAdded = CMResult.synonymTermAdded ∧
    ∃ nt, mfind? stateT12new.termsByTermNorm "NEW" = some nt ∧
      nt.termNorm = "NEW" ∧ nt.aggregatedBy = .modifiedByCuration ∧
      (∃ i ∈ idsOfAssocList [eqA, eqB],
        nt.associatedIdSets ∈ assocSetsForId stateT12 i) ∧
      (∀ i ∈ idsOfAssocList [eqA, eqB], ∀ S ∈ assocSetsForId stateT12 i,
        nt.associatedIdSets.card ≤ S.card) :=
  attemptToAdd_fresh_uses_minimal_existing_assoc ctxPlain stateT12 stateT12new
    "NEW" [eqA, eqB] "new" .synonymTermAdded (by decide) (by decide) (by decide)

end ClaimC2Witness

section ClaimC1

/-- Every live entry's term carries its key as its term norm. -/
def KeysMatch (s : CPState) : Prop :=
  ∀ tn t, mfind? s.termsByTermNorm tn = some t → t.termNorm = tn

/-- Every by-id bucket member spans the bucket's id. -/
def ByIdSound (s : CPState) : Prop :=
  ∀ i b, mfind? s.termsById i = some b → ∀ t ∈ b, i ∈ t.allIds

/-- Every live term is indexed under each of its ids satisfying `P`. -/
def LiveIndexedAt (P : String → Prop) (s : CPState) : Prop :=
  ∀ tn t, mfind? s.termsByTermNorm tn = some t → ∀ i ∈ t.allIds, P i →
    ∃ b, mfind? s.termsById i = some b ∧ t ∈ b

/-- Every live term is indexed under each id it spans. -/
def LiveIndexed (s : CPState) : Prop := LiveIndexedAt (fun _ => True) s

/-- The preserved part of the claimed index consistency. -/
def CPInv (s : CPState) : Prop := KeysMatch s ∧ ByIdSound s ∧ LiveIndexed s

theorem mfind?_minsert {α β : Type} [DecidableEq α] (m : List (α × β))
    (k : α) (v : β) (k' : α) :
    mfind? (minsert m k v) k' = if k = k' then some v else mfind? m k' := by
  by_cases h : k = k'
  · subst h; rw [if_pos rfl]; exact mfind?_minsert_self m k v
  · rw [if_neg h]; exact mfind?_minsert_ne m k k' v h

/-- Old bucket members survive `addToBuckets`. -/
theorem addToBuckets_preserves :
    ∀ (ids : List String) (m : List (String × List SynonymTerm))
      (t : SynonymTerm) (i : String) (b : List SynonymTerm) (x : SynonymTerm),
      mfind? m i = some b → x ∈ b →
      ∃ b', mfind? (addToBuckets m t ids) i = some b' ∧ x ∈ b' := by
  intro ids
  induction ids with
  | nil => intro m t i b x hb hx; exact ⟨b, hb, hx⟩
  | cons i0 rest ih =>
    intro m t i b x hb hx
    rw [addToBuckets]
    by_cases hii : i0 = i
    · subst hii
      have hlook : mfind? (minsert m i0 (bucketInsert ((mfind? m i0).getD []) t)) i0
          = some (bucketInsert ((mfind? m i0).getD []) t) := mfind?_minsert_self _ _ _
      refine ih _ t i0 _ x hlook ?_
      rw [hb]
      exact (mem_bucketInsert _ _ _).2 (Or.inl (by simpa [hb] using hx))
    · exact ih _ t i _ x (by rw [mfind?_minsert_ne _ _ _ _ hii, hb]) hx

/-- `addToBuckets` files the term under every listed id. -/
theorem addToBuckets_adds :
    ∀ (ids : List String) (m : List (String × List SynonymTerm))
      (t : SynonymTerm) (i : String), i ∈ ids →
      ∃ b', mfind? (addToBuckets m t ids) i = some b' ∧ t ∈ b' := by
  intro ids
  induction ids with
  | nil => intro m t i h; simp at h
  | cons i0 rest ih =>
    intro m t i h
    rw [addToBuckets]
    rcases List.mem_cons.1 h with rfl | h
    · exact addToBuckets_preserves rest _ t i _ t (mfind?_minsert_self _ _ _)
        ((mem_bucketInsert _ _ _).2 (Or.inr rfl))
    · exact ih _ t i h

/-- New bucket members of `addToBuckets` are old members or the filed term. -/
theorem addToBuckets_members :
    ∀ (ids : List String) (m : List (String × List SynonymTerm))
      (t : SynonymTerm) (i : String) (b' : List SynonymTerm),
      mfind? (addToBuckets m t ids) i = some b' → ∀ x ∈ b',
      (∃ b, mfind? m i = some b ∧ x ∈ b) ∨ (x = t ∧ i ∈ ids) := by
  intro ids
  induction ids with
  | nil => intro m t i b' hb' x hx; exact Or.inl ⟨b', hb', hx⟩
  | cons i0 rest ih =>
    intro m t i b' hb' x hx
    rw [addToBuckets] at hb'
    rcases ih _ t i b' hb' x hx with ⟨b, hb, hxb⟩ | ⟨hxt, hmem⟩
    · rw [mfind?_minsert] at hb
      by_cases hii : i0 = i
      · rw [if_pos hii] at hb
        obtain rfl : bucketInsert ((mfind? m i0).getD []) t = b := by simpa using hb
        rcases (mem_bucketInsert _ _ _).1 hxb with hxo | hxo
        · cases hfind : mfind? m i0 with
          | none => rw [hfind] at hxo; simp at hxo
          | some bOld =>
            rw [hfind] at hxo
            exact Or.inl ⟨bOld, hii ▸ hfind, hxo⟩
        · exact Or.inr ⟨hxo, List.mem_cons.2 (Or.inl hii.symm)⟩
      · rw [if_neg hii] at hb
        exact Or.inl ⟨b, hb, hxb⟩
    · exact Or.inr ⟨hxt, List.mem_cons_of_mem _ hmem⟩

/-- `addToBuckets` leaves unlisted keys untouched. -/
theorem addToBuckets_untouched :
    ∀ (ids : List String) (m : List (String × List SynonymTerm))
      (t : SynonymTerm) (i : String), i ∉ ids →
      mfind? (addToBuckets m t ids) i = mfind? m i := by
  intro ids
  induction ids with
  | nil => intro m t i _; rfl
  | cons i0 rest ih =>
    intro m t i h
    rw [addToBuckets, ih _ t i (fun hc => h (List.mem_cons_of_mem _ hc)),
      mfind?_minsert_ne]
    exact fun hc => h (hc ▸ List.mem_cons_self _ _)

/-- Bucket members other than the dropped term survive `removeFromBuckets`. -/
theorem removeFromBuckets_preserves :
    ∀ (ids : List String) (m : List (String × List SynonymTerm))
      (t : SynonymTerm) (i : String) (b : List SynonymTerm) (x : SynonymTerm),
      x ≠ t → mfind? m i = some b → x ∈ b →
      ∃ b', mfind? (removeFromBuckets m t ids) i = some b' ∧ x ∈ b' := by
  intro ids
  induction ids with
  | nil => intro m t i b x _ hb hx; exact ⟨b, hb, hx⟩
  | cons i0 rest ih =>
    intro m t i b x hxt hb hx
    rw [removeFromBuckets]
    cases hfind : mfind? m i0 with
    | none => exact ih _ t i b x hxt hb hx
    | some b0 =>
      dsimp only
      by_cases htb : t ∈ b0
      · rw [if_pos htb]
        by_cases hii : i0 = i
        · subst hii
          obtain rfl : b0 = b := by rw [hfind] at hb; simpa using hb
          exact ih _ t i0 _ x hxt (mfind?_minsert_self _ _ _)
            ((List.mem_erase_of_ne hxt).2 hx)
        · exact ih _ t i b x hxt (by rw [mfind?_minsert_ne _ _ _ _ hii]; exact hb) hx
      · rw [if_neg htb]
        exact ⟨b, hb, hx⟩

/-- `removeFromBuckets` only shrinks buckets. -/
theorem removeFromBuckets_members :
    ∀ (ids : List String) (m : List (String × List SynonymTerm))
      (t : SynonymTerm) (i : String) (b' : List SynonymTerm),
      mfind? (removeFromBuckets m t ids) i = some b' → ∀ x ∈ b',
      ∃ b, mfind? m i = some b ∧ x ∈ b := by
  intro ids
  induction ids with
  | nil => intro m t i b' hb' x hx; exact ⟨b', hb', hx⟩
  | cons i0 rest ih =>
    intro m t i b' hb' x hx
    rw [removeFromBuckets] at hb'
    cases hfind : mfind? m i0 with
    | none =>
      rw [hfind] at hb'
      exact ih _ t i b' hb' x hx
    | some b0 =>
      rw [hfind] at hb'
      dsimp only at hb'
      by_cases htb : t ∈ b0
      · rw [if_pos htb] at hb'
        obtain ⟨b1, hb1, hxb1⟩ := ih _ t i b' hb' x hx
        rw [mfind?_minsert] at hb1
        by_cases hii : i0 = i
        · rw [if_pos hii] at hb1
          obtain rfl : b0.erase t = b1 := by simpa using hb1
          exact ⟨b0, hii ▸ hfind, List.erase_subset _ _ hxb1⟩
        · rw [if_neg hii] at hb1
          exact ⟨b1, hb1, hxb1⟩
      · rw [if_neg htb] at hb'
        exact ⟨b', hb', hx⟩

/-- `removeFromBuckets` never creates keys. -/
theorem removeFromBuckets_none :
    ∀ (ids : List String) (m : List (String × List SynonymTerm))
      (t : SynonymTerm) (i : String), mfind? m i = none →
      mfind? (removeFromBuckets m t ids) i = none := by
  intro ids
  induction ids with
  | nil => intro m t i h; exact h
  | cons i0 rest ih =>
    intro m t i h
    rw [removeFromBuckets]
    cases hfind : mfind? m i0 with
    | none => exact ih _ t i h
    | some b0 =>
      dsimp only
      by_cases htb : t ∈ b0
      · rw [if_pos htb]
        refine ih _ t i ?_
        rw [mfind?_minsert_ne]
        · exact h
        · intro hc
          rw [hc, h] at hfind
          cases hfind
      · rw [if_neg htb]
        exact h

end ClaimC1

section ClaimC1Ops

/-- A successful `updateTermLookups` either does nothing or registers the term
in both indices. -/
theorem updateTermLookups_cases {s : CPState} {t : SynonymTerm} {o : Bool}
    {s' : CPState} {r : CMResult}
    (h : updateTermLookups s t o = .ok (s', r)) :
    (s' = s ∧ r = .noAction) ∨
    (s' = { s with
        termsByTermNorm := minsert s.termsByTermNorm t.termNorm t,
        termsById := addToBuckets s.termsById t (idList t.allIds) } ∧
      r = .synonymTermAdded) := by
  rw [updateTermLookups] at h
  by_cases ho : t.originalTerm ≠ none
  · rw [if_pos ho] at h; cases h
  · rw [if_neg ho] at h
    by_cases hsafe : ((mfind? s.termsByTermNorm t.termNorm).isNone || o) = true
    · right
      simp only [hsafe, if_pos] at h
      obtain ⟨h1, h2⟩ := by simpa using h
      exact ⟨h1.symm, h2.symm⟩
    · left
      simp only [hsafe] at h
      rw [if_neg (by simpa using hsafe)] at h
      obtain ⟨h1, h2⟩ := by simpa using h
      exact ⟨h1.symm, h2.symm⟩

/-- With `override` set, `updateTermLookups` always registers. -/
theorem updateTermLookups_override {s : CPState} {t : SynonymTerm}
    {s' : CPState} {r : CMResult}
    (h : updateTermLookups s t true = .ok (s', r)) :
    s' = { s with
        termsByTermNorm := minsert s.termsByTermNorm t.termNorm t,
        termsById := addToBuckets s.termsById t (idList t.allIds) } ∧
      r = .synonymTermAdded := by
  rw [updateTermLookups] at h
  by_cases ho : t.originalTerm ≠ none
  · rw [if_pos ho] at h; cases h
  · rw [if_neg ho] at h
    simp only [Bool.or_true, if_pos] at h
    obtain ⟨h1, h2⟩ := by simpa using h
    exact ⟨h1.symm, h2.symm⟩

/-- `updateTermLookups` preserves the three index invariants. -/
theorem updateTermLookups_pres (P : String → Prop) {s : CPState}
    {t : SynonymTerm} {o : Bool} {s' : CPState} {r : CMResult}
    (hkm : KeysMatch s) (hbis : ByIdSound s) (hli : LiveIndexedAt P s)
    (h : updateTermLookups s t o = .ok (s', r)) :
    KeysMatch s' ∧ ByIdSound s' ∧ LiveIndexedAt P s' := by
  rcases updateTermLookups_cases h with ⟨rfl, _⟩ | ⟨rfl, _⟩
  · exact ⟨hkm, hbis, hli⟩
  · refine ⟨?_, ?_, ?_⟩
    · intro tn u hu
      rw [mfind?_minsert] at hu
      by_cases htn : t.termNorm = tn
      · rw [if_pos htn] at hu
        obtain rfl : t = u := by simpa using hu
        exact htn
      · rw [if_neg htn] at hu
        exact hkm tn u hu
    · intro i b hb u hu
      rcases addToBuckets_members _ _ _ _ _ hb u hu with ⟨b0, hb0, hub0⟩ | ⟨rfl, hi⟩
      · exact hbis i b0 hb0 u hub0
      · exact (mem_idList _ _).1 hi
    · intro tn u hu i hi hPi
      rw [mfind?_minsert] at hu
      by_cases htn : t.termNorm = tn
      · rw [if_pos htn] at hu
        obtain rfl : t = u := by simpa using hu
        exact addToBuckets_adds _ _ _ _ ((mem_idList _ _).2 hi)
      · rw [if_neg htn] at hu
        obtain ⟨b, hb, hub⟩ := hli tn u hu i hi hPi
        exact addToBuckets_preserves _ _ _ _ _ _ hb hub

/-- `updateTermLookups` creates no bucket for an id the term does not span. -/
theorem updateTermLookups_byIdNone {idx : String} {s : CPState}
    {t : SynonymTerm} {o : Bool} {s' : CPState} {r : CMResult}
    (hnot : idx ∉ t.allIds) (h0 : mfind? s.termsById idx = none)
    (h : updateTermLookups s t o = .ok (s', r)) :
    mfind? s'.termsById idx = none := by
  rcases updateTermLookups_cases h with ⟨rfl, _⟩ | ⟨rfl, _⟩
  · exact h0
  · rw [show ({ s with
        termsByTermNorm := minsert s.termsByTermNorm t.termNorm t,
        termsById := addToBuckets s.termsById t (idList t.allIds) } : CPState).termsById
      = addToBuckets s.termsById t (idList t.allIds) from rfl]
    rw [addToBuckets_untouched _ _ _ _ (fun hc => hnot ((mem_idList _ _).1 hc))]
    exact h0

/-- `dropSynonymTerm` preserves the index invariants (the key-match invariant
identifies the popped term with the live entry being removed). -/
theorem dropSynonymTerm_pres (P : String → Prop) {s : CPState} {syn : String}
    (hkm : KeysMatch s) (hbis : ByIdSound s) (hli : LiveIndexedAt P s) :
    KeysMatch (dropSynonymTerm s syn) ∧ ByIdSound (dropSynonymTerm s syn) ∧
    LiveIndexedAt P (dropSynonymTerm s syn) := by
  rw [dropSynonymTerm]
  cases hfind : mfind? s.termsByTermNorm syn with
  | none => exact ⟨hkm, hbis, hli⟩
  | some t0 =>
    have ht0 : t0.termNorm = syn := hkm syn t0 hfind
    refine ⟨?_, ?_, ?_⟩
    · intro tn u hu
      by_cases htn : tn = syn
      · subst htn
        rw [show ({ s with
            termsByTermNorm := merase s.termsByTermNorm tn,
            termsById := removeFromBuckets s.termsById t0 (idList t0.allIds) } :
              CPState).termsByTermNorm = merase s.termsByTermNorm tn from rfl,
          mfind?_merase_self] at hu
        cases hu
      · rw [show ({ s with
            termsByTermNorm := merase s.termsByTermNorm syn,
            termsById := removeFromBuckets s.termsById t0 (idList t0.allIds) } :
              CPState).termsByTermNorm = merase s.termsByTermNorm syn from rfl,
          mfind?_merase_ne _ _ _ (fun hc => htn hc.symm)] at hu
        exact hkm tn u hu
    · intro i b hb u hu
      obtain ⟨b0, hb0, hub0⟩ := removeFromBuckets_members _ _ _ _ _ hb u hu
      exact hbis i b0 hb0 u hub0
    · intro tn u hu i hi hPi
      by_cases htn : tn = syn
      · subst htn
        rw [show ({ s with
            termsByTermNorm := merase s.termsByTermNorm tn,
            termsById := removeFromBuckets s.termsById t0 (idList t0.allIds) } :
              CPState).termsByTermNorm = merase s.termsByTermNorm tn from rfl,
          mfind?_merase_self] at hu
        cases hu
      · rw [show ({ s with
            termsByTermNorm := merase s.termsByTermNorm syn,
            termsById := removeFromBuckets s.termsById t0 (idList t0.allIds) } :
              CPState).termsByTermNorm = merase s.termsByTermNorm syn from rfl,
          mfind?_merase_ne _ _ _ (fun hc => htn hc.symm)] at hu
        have hune : u ≠ t0 := by
          intro hc
          have h1 : u.termNorm = tn := hkm tn u hu
          exact htn (by rw [← h1, hc, ht0])
        obtain ⟨b, hb, hub⟩ := hli tn u hu i hi hPi
        exact removeFromBuckets_preserves _ _ _ _ _ _ hune hb hub

/-- `dropSynonymTerm` never creates by-id keys. -/
theorem dropSynonymTerm_byIdNone {idx : String} {s : CPState} {syn : String}
    (h0 : mfind? s.termsById idx = none) :
    mfind? (dropSynonymTerm s syn).termsById idx = none := by
  rw [dropSynonymTerm]
  cases hfind : mfind? s.termsByTermNorm syn with
  | none => exact h0
  | some t0 => exact removeFromBuckets_none _ _ _ _ h0

end ClaimC1Ops

section ClaimC1Drop

/-- The dropped id never survives `dropIdFromAssoc`. -/
theorem not_mem_dropIdFromAssoc (idx : String) (a : AssocIdSets) :
    idx ∉ assocAllIds (dropIdFromAssoc idx a) := by
  intro h
  obtain ⟨e, he, hid⟩ := (mem_assocAllIds _ _).1 h
  rw [dropIdFromAssoc, Finset.mem_filter] at he
  obtain ⟨he1, _⟩ := he
  obtain ⟨e0, _, rfl⟩ := Finset.mem_image.1 he1
  rw [eqIdSetIds, Finset.mem_image] at hid
  obtain ⟨p, hp, hfst⟩ := hid
  rw [Finset.mem_filter] at hp
  exact absurd hfst (by simpa using hp.2)

/-- When `dropIdFromAssoc` is the identity, the id was absent to begin with. -/
theorem not_mem_of_dropIdFromAssoc_eq {idx : String} {a : AssocIdSets}
    (h : dropIdFromAssoc idx a = a) : idx ∉ assocAllIds a :=
  h ▸ not_mem_dropIdFromAssoc idx a

/-- A successful `modifyOrDrop` either went through an overriding
`updateTermLookups` on the rewritten term, or dropped the term outright. -/
theorem modifyOrDrop_step {s : CPState} {na : AssocIdSets} {t : SynonymTerm}
    {s' : CPState} {r : CMResult}
    (h : modifyOrDrop s na t = .ok (s', r)) :
    (∃ r2, updateTermLookups s
        { t with associatedIdSets := na, aggregatedBy := .modifiedByCuration }
        true = .ok (s', r2)) ∨
      s' = dropSynonymTerm s t.termNorm := by
  rw [modifyOrDrop] at h
  by_cases hc : 0 < na.card
  · rw [if_pos hc] at h
    by_cases heq : na = t.associatedIdSets
    · rw [if_pos heq] at h; cases h
    · rw [if_neg heq] at h
      cases hupd : updateTermLookups s
          { t with associatedIdSets := na, aggregatedBy := .modifiedByCuration }
          true with
      | error e => rw [hupd] at h; cases h
      | ok pr =>
        obtain ⟨s2, r2⟩ := pr
        rw [hupd] at h
        dsimp only at h
        by_cases hr2 : r2 = .synonymTermAdded
        · rw [if_pos hr2] at h
          obtain ⟨h1, _⟩ := by simpa using h
          exact Or.inl ⟨r2, by rw [h1]⟩
        · rw [if_neg hr2] at h; cases h
  · rw [if_neg hc] at h
    obtain ⟨h1, _⟩ := by simpa using h
    exact Or.inr h1.symm

/-- `modifyOrDrop` preserves the index invariants. -/
theorem modifyOrDrop_pres (P : String → Prop) {s : CPState} {na : AssocIdSets}
    {t : SynonymTerm} {s' : CPState} {r : CMResult}
    (hkm : KeysMatch s) (hbis : ByIdSound s) (hli : LiveIndexedAt P s)
    (h : modifyOrDrop s na t = .ok (s', r)) :
    KeysMatch s' ∧ ByIdSound s' ∧ LiveIndexedAt P s' := by
  rcases modifyOrDrop_step h with ⟨r2, hupd⟩ | rfl
  · exact updateTermLookups_pres P hkm hbis hli hupd
  · exact dropSynonymTerm_pres P hkm hbis hli

/-- `modifyOrDrop` creates no bucket for an id outside the replacement set. -/
theorem modifyOrDrop_byIdNone {idx : String} {s : CPState} {na : AssocIdSets}
    {t : SynonymTerm} {s' : CPState} {r : CMResult}
    (hna : idx ∉ assocAllIds na) (h0 : mfind? s.termsById idx = none)
    (h : modifyOrDrop s na t = .ok (s', r)) :
    mfind? s'.termsById idx = none := by
  rcases modifyOrDrop_step h with ⟨r2, hupd⟩ | rfl
  · refine updateTermLookups_byIdNone ?_ h0 hupd
    simpa [SynonymTerm.allIds] using hna
  · exact dropSynonymTerm_byIdNone h0

/-- `dropIdFromSynonymTerm` preserves the index invariants. -/
theorem dropIdFromSynonymTerm_pres (P : String → Prop) {s : CPState}
    {idx : String} {t : SynonymTerm} {s' : CPState} {r : CMResult}
    (hkm : KeysMatch s) (hbis : ByIdSound s) (hli : LiveIndexedAt P s)
    (h : dropIdFromSynonymTerm s idx t = .ok (s', r)) :
    KeysMatch s' ∧ ByIdSound s' ∧ LiveIndexedAt P s' := by
  rw [dropIdFromSynonymTerm] at h
  by_cases heq : dropIdFromAssoc idx t.associatedIdSets = t.associatedIdSets
  · rw [if_pos heq] at h
    obtain ⟨h1, _⟩ := by simpa using h
    exact h1 ▸ ⟨hkm, hbis, hli⟩
  · rw [if_neg heq] at h
    exact modifyOrDrop_pres P hkm hbis hli h

/-- `dropIdFromSynonymTerm` never introduces a bucket for the dropped id. -/
theorem dropIdFromSynonymTerm_byIdNone {idx : String} {s : CPState}
    {t : SynonymTerm} {s' : CPState} {r : CMResult}
    (h0 : mfind? s.termsById idx = none)
    (h : dropIdFromSynonymTerm s idx t = .ok (s', r)) :
    mfind? s'.termsById idx = none := by
  rw [dropIdFromSynonymTerm] at h
  by_cases heq : dropIdFromAssoc idx t.associatedIdSets = t.associatedIdSets
  · rw [if_pos heq] at h
    obtain ⟨h1, _⟩ := by simpa using h
    exact h1 ▸ h0
  · rw [if_neg heq] at h
    exact modifyOrDrop_byIdNone (not_mem_dropIdFromAssoc idx _) h0 h

end ClaimC1Drop

section ClaimC1Loop

/-- Coverage of the pending pile: any live term still spanning the dropped id
is among the terms not yet processed. -/
def PileCover (idx : String) (s : CPState) (pile : List SynonymTerm) : Prop :=
  ∀ tn t, mfind? s.termsByTermNorm tn = some t → idx ∈ t.allIds → t ∈ pile

/-- The three possible outcomes of `dropIdFromSynonymTerm`, with the rewritten
term made explicit. -/
theorem dropIdFromSynonymTerm_cases {s : CPState} {idx : String}
    {t : SynonymTerm} {s' : CPState} {r : CMResult}
    (h : dropIdFromSynonymTerm s idx t = .ok (s', r)) :
    (s' = s ∧ dropIdFromAssoc idx t.associatedIdSets = t.associatedIdSets) ∨
    (∃ r2, updateTermLookups s
        { t with associatedIdSets := dropIdFromAssoc idx t.associatedIdSets,
                 aggregatedBy := .modifiedByCuration } true = .ok (s', r2)) ∨
    s' = dropSynonymTerm s t.termNorm := by
  rw [dropIdFromSynonymTerm] at h
  by_cases heq : dropIdFromAssoc idx t.associatedIdSets = t.associatedIdSets
  · rw [if_pos heq] at h
    obtain ⟨h1, _⟩ := by simpa using h
    exact Or.inl ⟨h1.symm, heq⟩
  · rw [if_neg heq] at h
    exact Or.inr (modifyOrDrop_step h)

/-- One step of the drop loop keeps the invariants and shrinks the cover. -/
theorem dropIdFromSynonymTerm_cover {idx : String} {s : CPState}
    {t : SynonymTerm} {rest : List SynonymTerm} {s' : CPState} {r : CMResult}
    (hkm : KeysMatch s) (hpc : PileCover idx s (t :: rest))
    (h : dropIdFromSynonymTerm s idx t = .ok (s', r)) :
    PileCover idx s' rest := by
  rcases dropIdFromSynonymTerm_cases h with ⟨rfl, heq⟩ | ⟨r2, hupd⟩ | rfl
  · intro tn u hu hidx
    rcases List.mem_cons.1 (hpc tn u hu hidx) with rfl | hrest
    · exact absurd hidx (by
        rw [SynonymTerm.allIds]
        exact not_mem_of_dropIdFromAssoc_eq heq)
    · exact hrest
  · obtain ⟨rfl, _⟩ := updateTermLookups_override hupd
    intro tn u hu hidx
    rw [show ({ s with
        termsByTermNorm := minsert s.termsByTermNorm
          ({ t with associatedIdSets := dropIdFromAssoc idx t.associatedIdSets,
                    aggregatedBy := .modifiedByCuration } : SynonymTerm).termNorm
          { t with associatedIdSets := dropIdFromAssoc idx t.associatedIdSets,
                   aggregatedBy := .modifiedByCuration },
        termsById := addToBuckets s.termsById
          { t with associatedIdSets := dropIdFromAssoc idx t.associatedIdSets,
                   aggregatedBy := .modifiedByCuration }
          (idList ({ t with
              associatedIdSets := dropIdFromAssoc idx t.associatedIdSets,
              aggregatedBy := .modifiedByCuration } : SynonymTerm).allIds) } :
        CPState).termsByTermNorm
      = minsert s.termsByTermNorm t.termNorm
          { t with associatedIdSets := dropIdFromAssoc idx t.associatedIdSets,
                   aggregatedBy := .modifiedByCuration } from rfl,
      mfind?_minsert] at hu
    by_cases htn : t.termNorm = tn
    · rw [if_pos htn] at hu
      obtain rfl := (by simpa using hu :
        ({ t with associatedIdSets := dropIdFromAssoc idx t.associatedIdSets,
                  aggregatedBy := .modifiedByCuration } : SynonymTerm) = u)
      exact absurd (by simpa [SynonymTerm.allIds] using hidx)
        (not_mem_dropIdFromAssoc idx t.associatedIdSets)
    · rw [if_neg htn] at hu
      rcases List.mem_cons.1 (hpc tn u hu hidx) with rfl | hrest
      · exact absurd (hkm tn u hu) htn
      · exact hrest
  · rw [dropSynonymTerm]
    cases hfind : mfind? s.termsByTermNorm t.termNorm with
    | none =>
      dsimp only
      intro tn u hu hidx
      rcases List.mem_cons.1 (hpc tn u hu hidx) with rfl | hrest
      · rw [hkm tn u hu] at hfind
        rw [hfind] at hu
        cases hu
      · exact hrest
    | some t0 =>
      dsimp only
      intro tn u hu hidx
      by_cases htn : tn = t.termNorm
      · rw [htn, mfind?_merase_self] at hu
        cases hu
      · rw [mfind?_merase_ne _ _ _ (fun hc => htn hc.symm)] at hu
        rcases List.mem_cons.1 (hpc tn u hu hidx) with rfl | hrest
        · exact absurd (hkm tn u hu).symm htn
        · exact hrest

/-- The drop loop preserves the invariants and empties the cover. -/
theorem dropTermsLoop_inv (idx : String) :
    ∀ (pile : List SynonymTerm) (s : CPState) (m d : Nat) (s' : CPState)
      (m' d' : Nat),
    KeysMatch s → ByIdSound s → LiveIndexedAt (fun i => i ≠ idx) s →
    mfind? s.termsById idx = none → PileCover idx s pile →
    dropTermsLoop s idx pile m d = .ok (s', m', d') →
    KeysMatch s' ∧ ByIdSound s' ∧ LiveIndexedAt (fun i => i ≠ idx) s' ∧
      mfind? s'.termsById idx = none ∧ PileCover idx s' [] := by
  intro pile
  induction pile with
  | nil =>
    intro s m d s' m' d' hkm hbis hli h0 hpc h
    obtain ⟨h1, _⟩ := by simpa [dropTermsLoop] using h
    exact h1 ▸ ⟨hkm, hbis, hli, h0, hpc⟩
  | cons t rest ih =>
    intro s m d s' m' d' hkm hbis hli h0 hpc h
    rw [dropTermsLoop] at h
    cases hstep : dropIdFromSynonymTerm s idx t with
    | error e => rw [hstep] at h; cases h
    | ok pr =>
      obtain ⟨s1, r1⟩ := pr
      rw [hstep] at h
      dsimp only at h
      obtain ⟨hkm1, hbis1, hli1⟩ :=
        dropIdFromSynonymTerm_pres (fun i => i ≠ idx) hkm hbis hli hstep
      have h01 := dropIdFromSynonymTerm_byIdNone h0 hstep
      have hpc1 := dropIdFromSynonymTerm_cover hkm hpc hstep
      cases r1 with
      | synonymTermDropped => exact ih s1 m (d + 1) s' m' d' hkm1 hbis1 hli1 h01 hpc1 h
      | idSetModified => exact ih s1 (m + 1) d s' m' d' hkm1 hbis1 hli1 h01 hpc1 h
      | noAction => exact ih s1 m d s' m' d' hkm1 hbis1 hli1 h01 hpc1 h
      | synonymTermAdded => exact ih s1 m d s' m' d' hkm1 hbis1 hli1 h01 hpc1 h

/-- `dropIdFromAllSynonymTerms` preserves the index invariants. -/
theorem dropIdFromAllSynonymTerms_inv {s : CPState} {idx : String}
    {s' : CPState} {m d : Nat}
    (hinv : CPInv s) (h : dropIdFromAllSynonymTerms s idx = .ok (s', m, d)) :
    CPInv s' := by
  obtain ⟨hkm, hbis, hli⟩ := hinv
  rw [dropIdFromAllSynonymTerms] at h
  cases hfind : mfind? s.termsById idx with
  | none => rw [hfind] at h; cases h
  | some pile =>
    rw [hfind] at h
    dsimp only at h
    have hkm1 : KeysMatch { s with termsById := merase s.termsById idx } := hkm
    have hbis1 : ByIdSound { s with termsById := merase s.termsById idx } := by
      intro i b hb u hu
      by_cases hi : i = idx
      · subst hi
        rw [show ({ s with termsById := merase s.termsById i } :
              CPState).termsById = merase s.termsById i from rfl,
          mfind?_merase_self] at hb
        cases hb
      · rw [show ({ s with termsById := merase s.termsById idx } :
              CPState).termsById = merase s.termsById idx from rfl,
          mfind?_merase_ne _ _ _ (fun hc => hi hc.symm)] at hb
        exact hbis i b hb u hu
    have hli1 : LiveIndexedAt (fun i => i ≠ idx)
        { s with termsById := merase s.termsById idx } := by
      intro tn u hu i hi hne
      obtain ⟨b, hb, hub⟩ := hli tn u hu i hi trivial
      exact ⟨b, by
        rw [show ({ s with termsById := merase s.termsById idx } :
              CPState).termsById = merase s.termsById idx from rfl,
          mfind?_merase_ne _ _ _ (fun hc => hne hc.symm)]
        exact hb, hub⟩
    have h01 : mfind? ({ s with termsById := merase s.termsById idx } :
        CPState).termsById idx = none := mfind?_merase_self _ _
    have hpc1 : PileCover idx { s with termsById := merase s.termsById idx }
        pile := by
      intro tn u hu hidx
      obtain ⟨b, hb, hub⟩ := hli tn u hu idx hidx trivial
      rw [hfind] at hb
      cases hb
      exact hub
    obtain ⟨hkm', hbis', hli', _, hpc'⟩ :=
      dropTermsLoop_inv idx pile _ 0 0 s' m d hkm1 hbis1 hli1 h01 hpc1 h
    refine ⟨hkm', hbis', ?_⟩
    intro tn u hu i hi _
    by_cases hne : i = idx
    · subst hne
      exact absurd (hpc' tn u hu hi) (List.not_mem_nil u)
    · exact hli' tn u hu i hi hne

end ClaimC1Loop

section ClaimC1Compose

/-- `dropEquivFromTerm` preserves the index invariants. -/
theorem dropEquivFromTerm_inv {s : CPState} {syn : String} {e : EqIdSet}
    {s' : CPState} {r : CMResult}
    (hinv : CPInv s) (h : dropEquivFromTerm s syn e = .ok (s', r)) : CPInv s' := by
  obtain ⟨hkm, hbis, hli⟩ := hinv
  rw [dropEquivFromTerm] at h
  cases hfind : mfind? s.termsByTermNorm syn with
  | none => rw [hfind] at h; cases h
  | some t =>
    rw [hfind] at h
    dsimp only at h
    exact modifyOrDrop_pres (fun _ => True) hkm hbis hli h

/-- The `dropIdSetLoop` fold preserves the index invariants. -/
theorem dropIdSetLoop_inv {tnorm : String} {origTerm : SynonymTerm} :
    ∀ {l : List EqIdSet} {s s' : CPState},
    CPInv s → dropIdSetLoop s tnorm origTerm l = .ok s' → CPInv s' := by
  intro l
  induction l with
  | nil =>
    intro s s' hinv h
    obtain rfl : s = s' := by simpa [dropIdSetLoop] using h
    exact hinv
  | cons e rest ih =>
    intro s s' hinv h
    rw [dropIdSetLoop] at h
    by_cases hmem : e ∈ origTerm.associatedIdSets
    · rw [if_pos hmem] at h
      cases hstep : dropEquivFromTerm s tnorm e with
      | error err => rw [hstep] at h; cases h
      | ok pr =>
        obtain ⟨s1, r1⟩ := pr
        rw [hstep] at h
        dsimp only at h
        exact ih (dropEquivFromTerm_inv hinv hstep) h
    · rw [if_neg hmem] at h
      exact ih hinv h

/-- `dropIdSetFromSynonymTerm` preserves the index invariants. -/
theorem dropIdSetFromSynonymTerm_inv {s : CPState} {dropSets : List EqIdSet}
    {tnorm : String} {s' : CPState}
    (hinv : CPInv s) (h : dropIdSetFromSynonymTerm s dropSets tnorm = .ok s') :
    CPInv s' := by
  rw [dropIdSetFromSynonymTerm] at h
  cases hfind : mfind? s.termsByTermNorm tnorm with
  | none => rw [hfind] at h; cases h
  | some t =>
    rw [hfind] at h
    dsimp only at h
    exact dropIdSetLoop_inv hinv h

/-- `attemptToAdd` preserves the index invariants. -/
theorem attemptToAdd_inv {ctx : CPCtx} {s : CPState} {tn : String}
    {assoc : List EqIdSet} {syn : String} {s' : CPState} {r : CMResult}
    (hinv : CPInv s) (h : attemptToAdd ctx s tn assoc syn = .ok (s', r)) :
    CPInv s' := by
  obtain ⟨hkm, hbis, hli⟩ := hinv
  rw [attemptToAdd] at h
  cases hfind : mfind? s.termsByTermNorm tn with
  | some t =>
    rw [hfind] at h
    dsimp only at h
    by_cases hsub : assoc.toFinset ⊆ t.associatedIdSets
    · rw [if_pos hsub] at h
      obtain ⟨h1, _⟩ := by simpa using h
      exact h1 ▸ ⟨hkm, hbis, hli⟩
    · rw [if_neg hsub] at h; cases h
  | none =>
    rw [hfind] at h
    dsimp only at h
    cases hreuse : searchReuse s (idsOfAssocList assoc) none with
    | error e => rw [hreuse] at h; cases h
    | ok reuse =>
      rw [hreuse] at h
      dsimp only at h
      exact updateTermLookups_pres (fun _ => True) hkm hbis hli h

/-- `processActions` preserves the index invariants. -/
theorem processActions_inv {ctx : CPCtx} {c : Curation} {tn : String} :
    ∀ {acts : List SynonymTermAction} {s s' : CPState} {mc : Option Curation},
    CPInv s → processActions ctx s c tn acts = .ok (s', mc) → CPInv s' := by
  intro acts
  induction acts with
  | nil =>
    intro s s' mc hinv h
    obtain ⟨h1, _⟩ := by simpa [processActions] using h
    exact h1 ▸ hinv
  | cons a rest ih =>
    intro s s' mc hinv h
    rw [processActions] at h
    cases hb : a.behaviour with
    | ignore =>
      rw [hb] at h
      obtain ⟨h1, _⟩ := by simpa using h
      exact h1 ▸ hinv
    | inheritFromSourceTerm =>
      rw [hb] at h
      dsimp only at h
      by_cases hn : (mfind? s.termsByTermNorm tn).isNone = true
      · rw [if_pos hn] at h
        obtain ⟨h1, _⟩ := by simpa using h
        exact h1 ▸ hinv
      · rw [if_neg hn] at h
        obtain ⟨h1, _⟩ := by simpa using h
        exact h1 ▸ hinv
    | dropSynonymTermForLinking =>
      rw [hb] at h
      obtain ⟨h1, _⟩ := by simpa using h
      obtain ⟨hkm, hbis, hli⟩ := hinv
      exact h1 ▸ dropSynonymTerm_pres (fun _ => True) hkm hbis hli
    | dropIdSetFromSynonymTerm =>
      rw [hb] at h
      dsimp only at h
      cases ha : a.associatedIdSets with
      | none => rw [ha] at h; cases h
      | some assoc =>
        rw [ha] at h
        dsimp only at h
        rw [if_pos rfl] at h
        cases hstep : dropIdSetFromSynonymTerm s assoc tn with
        | error e => rw [hstep] at h; cases h
        | ok s1 =>
          rw [hstep] at h
          dsimp only at h
          exact ih (dropIdSetFromSynonymTerm_inv hinv hstep) h
    | addForLinkingOnly =>
      rw [hb] at h
      dsimp only at h
      cases ha : a.associatedIdSets with
      | none => rw [ha] at h; cases h
      | some assoc =>
        rw [ha] at h
        dsimp only at h
        rw [if_neg (by decide)] at h
        cases hstep : attemptToAdd ctx s tn assoc c.curatedSynonym with
        | error e => rw [hstep] at h; cases h
        | ok pr =>
          obtain ⟨s1, r1⟩ := pr
          rw [hstep] at h
          obtain ⟨h1, _⟩ := by simpa using h
          exact h1 ▸ attemptToAdd_inv hinv hstep
    | addForNerAndLinking =>
      rw [hb] at h
      dsimp only at h
      cases ha : a.associatedIdSets with
      | none => rw [ha] at h; cases h
      | some assoc =>
        rw [ha] at h
        dsimp only at h
        rw [if_neg (by decide)] at h
        cases hstep : attemptToAdd ctx s tn assoc c.curatedSynonym with
        | error e => rw [hstep] at h; cases h
        | ok pr =>
          obtain ⟨s1, r1⟩ := pr
          rw [hstep] at h
          obtain ⟨h1, _⟩ := by simpa using h
          exact h1 ▸ attemptToAdd_inv hinv hstep

/-- `processCuration` preserves the index invariants. -/
theorem processCuration_inv {ctx : CPCtx} {s : CPState} {c : Curation}
    {s' : CPState} {mc : Option Curation}
    (hinv : CPInv s) (h : processCuration ctx s c = .ok (s', mc)) : CPInv s' :=
  processActions_inv hinv h

/-- The curation-application loop preserves the index invariants. -/
theorem processCurationsLoop_inv {ctx : CPCtx} :
    ∀ {curs : List Curation} {s s' : CPState} {acc ner : List Curation},
    CPInv s → processCurationsLoop ctx s acc curs = .ok (s', ner) → CPInv s' := by
  intro curs
  induction curs with
  | nil =>
    intro s s' acc ner hinv h
    obtain ⟨h1, _⟩ := by simpa [processCurationsLoop] using h
    exact h1 ▸ hinv
  | cons c rest ih =>
    intro s s' acc ner hinv h
    rw [processCurationsLoop] at h
    cases hstep : processCuration ctx s c with
    | error e => rw [hstep] at h; cases h
    | ok pr =>
      obtain ⟨s1, mc⟩ := pr
      rw [hstep] at h
      dsimp only at h
      cases mc with
      | some c0 => exact ih (processCuration_inv hinv hstep) h
      | none => exact ih (processCuration_inv hinv hstep) h

/-- `processCurations` preserves the index invariants. -/
theorem processCurations_inv {ctx : CPCtx} {s s' : CPState}
    {ner : List Curation}
    (hinv : CPInv s) (h : processCurations ctx s = .ok (s', ner)) : CPInv s' :=
  processCurationsLoop_inv hinv h

end ClaimC1Compose

section ClaimC1Global

/-- `dropIdFromCurationLoop` never touches the two term indices. -/
theorem dropIdFromCurationLoop_terms {idx : String} :
    ∀ {affected : List Curation} {s s' : CPState},
    dropIdFromCurationLoop idx s affected = .ok s' →
    s'.termsByTermNorm = s.termsByTermNorm ∧ s'.termsById = s.termsById := by
  intro affected
  induction affected with
  | nil =>
    intro s s' h
    obtain rfl : s = s' := by simpa [dropIdFromCurationLoop] using h
    exact ⟨rfl, rfl⟩
  | cons c rest ih =>
    intro s s' h
    rw [dropIdFromCurationLoop] at h
    dsimp only at h
    split at h
    · split at h
      · have hh := ih h
        exact hh
      · cases h
    · split at h
      · have hh := ih h
        exact hh
      · cases h

/-- `dropIdFromCuration` preserves the index invariants (it only rewrites the
curation bookkeeping). -/
theorem dropIdFromCuration_inv {s : CPState} {idx : String} {s' : CPState}
    (hinv : CPInv s) (h : dropIdFromCuration s idx = .ok s') : CPInv s' := by
  rw [dropIdFromCuration] at h
  cases hfind : mfind? s.curationsById (some idx) with
  | none => rw [hfind] at h; cases h
  | some affected =>
    rw [hfind] at h
    dsimp only at h
    obtain ⟨h1, h2⟩ := dropIdFromCurationLoop_terms h
    obtain ⟨hkm, hbis, hli⟩ := hinv
    refine ⟨?_, ?_, ?_⟩
    · intro tn t ht
      exact hkm tn t (h1 ▸ ht)
    · intro i b hb t ht
      exact hbis i b (h2 ▸ hb) t ht
    · intro tn t ht i hi _
      obtain ⟨b, hb, htb⟩ := hli tn t (h1 ▸ ht) i hi trivial
      exact ⟨b, h2.symm ▸ hb, htb⟩

/-- The per-id loop of the global actions preserves the index invariants. -/
theorem processIdsLoop_inv :
    ∀ {ids : List String} {s s' : CPState},
    CPInv s → processIdsLoop s ids = .ok s' → CPInv s' := by
  intro ids
  induction ids with
  | nil =>
    intro s s' hinv h
    obtain rfl : s = s' := by simpa [processIdsLoop] using h
    exact hinv
  | cons i rest ih =>
    intro s s' hinv h
    rw [processIdsLoop] at h
    cases hstep : dropIdFromAllSynonymTerms s i with
    | error e => rw [hstep] at h; cases h
    | ok pr =>
      obtain ⟨s1, m, d⟩ := pr
      rw [hstep] at h
      dsimp only at h
      cases hcur : dropIdFromCuration s1 i with
      | error e => rw [hcur] at h; cases h
      | ok s2 =>
        rw [hcur] at h
        dsimp only at h
        exact ih (dropIdFromCuration_inv
          (dropIdFromAllSynonymTerms_inv hinv hstep) hcur) h

/-- The global-action loop preserves the index invariants. -/
theorem globalActionsLoop_inv :
    ∀ {acts : List (List String)} {s s' : CPState},
    CPInv s → globalActionsLoop s acts = .ok s' → CPInv s' := by
  intro acts
  induction acts with
  | nil =>
    intro s s' hinv h
    obtain rfl : s = s' := by simpa [globalActionsLoop] using h
    exact hinv
  | cons ids rest ih =>
    intro s s' hinv h
    rw [globalActionsLoop] at h
    cases hstep : processIdsLoop s ids with
    | error e => rw [hstep] at h; cases h
    | ok s1 =>
      rw [hstep] at h
      dsimp only at h
      exact ih (processIdsLoop_inv hinv hstep) h

/-- `processGlobalActions` preserves the index invariants. -/
theorem processGlobalActions_inv {ctx : CPCtx} {s s' : CPState}
    (hinv : CPInv s) (h : processGlobalActions ctx s = .ok s') : CPInv s' := by
  rw [processGlobalActions] at h
  cases hga : ctx.globalActions with
  | none =>
    rw [hga] at h
    obtain rfl : s = s' := by simpa using h
    exact hinv
  | some acts =>
    rw [hga] at h
    exact globalActionsLoop_inv hinv h

/-- The term-loading loop preserves the index invariants. -/
theorem initTermsLoop_inv :
    ∀ {terms : List SynonymTerm} {s s' : CPState},
    CPInv s → initTermsLoop s terms = .ok s' → CPInv s' := by
  intro terms
  induction terms with
  | nil =>
    intro s s' hinv h
    obtain rfl : s = s' := by simpa [initTermsLoop] using h
    exact hinv
  | cons t rest ih =>
    intro s s' hinv h
    rw [initTermsLoop] at h
    cases hstep : updateTermLookups s t false with
    | error e => rw [hstep] at h; cases h
    | ok pr =>
      obtain ⟨s1, r1⟩ := pr
      rw [hstep] at h
      dsimp only at h
      obtain ⟨hkm, hbis, hli⟩ := hinv
      exact ih (updateTermLookups_pres (fun _ => True) hkm hbis hli hstep) h

/-- The state built by `initState` satisfies the index invariants. -/
theorem initState_inv {curs : List Curation} {terms : List SynonymTerm}
    {s0 : CPState} (h : initState curs terms = .ok s0) : CPInv s0 := by
  rw [initState] at h
  cases hloop : initTermsLoop
      { termsByTermNorm := [], termsById := [], curations := [],
        curationsById := [] } terms with
  | error e => rw [hloop] at h; cases h
  | ok s1 =>
    rw [hloop] at h
    dsimp only at h
    obtain h1 := by simpa using h
    have hempty : CPInv
        { termsByTermNorm := [], termsById := [], curations := [],
          curationsById := [] } := by
      refine ⟨?_, ?_, ?_⟩
      · intro tn t ht; cases ht
      · intro i b hb; cases hb
      · intro tn t ht; cases ht
    obtain ⟨hkm, hbis, hli⟩ := initTermsLoop_inv hempty hloop
    refine h1 ▸ ⟨?_, ?_, ?_⟩
    · intro tn t ht; exact hkm tn t ht
    · intro i b hb t ht; exact hbis i b hb t ht
    · intro tn t ht i hi htr; exact hli tn t ht i hi htr

end ClaimC1Global

/-- C1 (amended): for every initial term set and every sequence of
curation/global-action operations the `CurationProcessor` applies, the final
state keeps one direction of the claimed index consistency: every live term
(a value of the by-term-norm index) is keyed by its own term norm and is
indexed in the by-id index under every id spanned by its `AssociatedIdSets`,
and every member of a by-id bucket spans the bucket's id.  This holds in
particular for the state behind `export_ner_curations_and_final_terms`, whose
final-terms component is exactly the live terms.  (The other direction of the
original claim — that a by-id bucket holds exactly the live terms spanning the
id — fails: `curationProcessor_index_consistency_counterexample` exhibits a
state reachable through a curation whose by-id bucket keeps a superseded
term.) -/
theorem curationProcessor_live_terms_always_indexed
    {ctx : CPCtx} {curs : List Curation} {terms : List SynonymTerm}
    {s0 s' : CPState} {ner : List Curation} {out : List SynonymTerm}
    (hinit : initState curs terms = .ok s0)
    (hexp : exportNerCurationsAndFinalTerms ctx s0 = .ok (s', ner, out)) :
    (∀ tn t, mfind? s'.termsByTermNorm tn = some t → t.termNorm = tn ∧
      ∀ i ∈ t.allIds, ∃ b, mfind? s'.termsById i = some b ∧ t ∈ b) ∧
    (∀ i b, mfind? s'.termsById i = some b → ∀ t ∈ b, i ∈ t.allIds) ∧
    out = liveTerms s' := by
  have hinv0 : CPInv s0 := initState_inv hinit
  rw [exportNerCurationsAndFinalTerms] at hexp
  cases hga : processGlobalActions ctx s0 with
  | error e => rw [hga] at hexp; cases hexp
  | ok s1 =>
    rw [hga] at hexp
    dsimp only at hexp
    cases hpc : processCurations ctx s1 with
    | error e => rw [hpc] at hexp; cases hexp
    | ok pr =>
      obtain ⟨s2, ner2⟩ := pr
      rw [hpc] at hexp
      dsimp only at hexp
      obtain ⟨h1, h2, h3⟩ := by simpa using hexp
      subst h1
      obtain ⟨hkm, hbis, hli⟩ :=
        processCurations_inv (processGlobalActions_inv hinv0 hga) hpc
      refine ⟨?_, hbis, h3.symm⟩
      intro tn t ht
      exact ⟨hkm tn t ht, fun i hi => hli tn t ht i hi trivial⟩

theorem curationProcessor_live_terms_always_indexed_witness :
    initState [] [termFoo] = .ok stateFooInit ∧
    exportNerCurationsAndFinalTerms ctxPlain stateFooInit =
      .ok (stateFooInit, [], [termFoo]) ∧
    ((∀ tn t, mfind? stateFooInit.termsByTermNorm tn = some t →
        t.termNorm = tn ∧
        ∀ i ∈ t.allIds, ∃ b, mfind? stateFooInit.termsById i = some b ∧ t ∈ b) ∧
      (∀ i b, mfind? stateFooInit.termsById i = some b → ∀ t ∈ b, i ∈ t.allIds) ∧
      [termFoo] = liveTerms stateFooInit) :=
  ⟨by decide, by decide,
    curationProcessor_live_terms_always_indexed
      (show initState [] [termFoo] = .ok stateFooInit by decide)
      (show exportNerCurationsAndFinalTerms ctxPlain stateFooInit =
        .ok (stateFooInit, [], [termFoo]) by decide)⟩
